import Mathlib

/-!
Verification of the 2D k-d tree spatial index (`src/geo/kdtree.rs`) and the
helpers it uses (`src/utils/mod.rs`).  Coordinates are embedded as `Int`:
the Rust code is generic over an ordered scalar `T` that injects into `i64`
and all distance arithmetic happens in `i64`; the spec's numeric-range
precondition (§7) says that arithmetic never overflows for supported
coordinate ranges, so exact integers model it.  The source files
`utils/ksmallest.rs`, `utils/ordwrapper.rs` and `geo/point.rs` are not part
of the provided tree; the definitions that stand in for them are marked
`Modelled from the spec:` and follow the spec's words (§3, §4.1, §4.2).
-/

namespace Matrs

/-- The axis used to split the space at a given point (`Axis` in kdtree.rs). -/
inductive Axis : Type where
  | X : Axis
  | Y : Axis
deriving DecidableEq, Repr

/-- `Axis::next`: return the next axis, going back to the beginning if necessary. -/
def Axis.next : Axis → Axis
  | .X => .Y
  | .Y => .X

/-- Modelled from the spec: the 2D point type (its source file `geo/point.rs` is not
in the provided tree).  Spec §3: a pair (x, y) of coordinates with equality on both
fields. -/
structure Point where
  x : Int
  y : Int
deriving DecidableEq, Repr

/-- `Point::axis_value` (the `AxisValue` impl in kdtree.rs): the coordinate of the
point on the given axis. -/
def Point.axis_value (p : Point) (ax : Axis) : Int :=
  match ax with
  | .X => p.x
  | .Y => p.y

/-- Modelled from the spec: `Point::squared_dist` (source not in the provided tree).
Spec glossary: squared Euclidean distance is the sum of squared per-axis
differences, computed in a wide enough numeric domain (`i64`, modelled as `Int`). -/
def Point.squared_dist (p q : Point) : Int :=
  (p.x - q.x) * (p.x - q.x) + (p.y - q.y) * (p.y - q.y)

/-- A node of the k-d tree.  Rust's `Option<Box<Node<T, V>>>` children are embedded
by letting `leaf` stand for `None`, so an `NTree` is "an optional node". -/
inductive NTree (V : Type) : Type where
  | leaf : NTree V
  | node (axis : Axis) (median : Point) (value : V) (left right : NTree V) : NTree V
deriving DecidableEq

/-- `KdTree`: an optional root node plus a count of stored points. -/
structure KdTree (V : Type) where
  root : NTree V
  length : Nat
deriving DecidableEq

/-- `KdTree::default` / `KdTree::new`: the empty tree. -/
def KdTree.empty {V : Type} : KdTree V := ⟨.leaf, 0⟩

/-- `KdTree::is_empty`. -/
def KdTree.is_empty {V : Type} (t : KdTree V) : Bool := t.length == 0

/-- The three-way integer comparison (`Ord::cmp` on the coordinate scalar). -/
def intCmp (a b : Int) : Ordering :=
  if a < b then .lt else if a = b then .eq else .gt

/-- `Node::cmp_to_point_value`: whether the given point lies before, in the same
place or after this node's median on the node's axis. -/
def cmp_to_point_value (median : Point) (axis : Axis) (p : Point) : Ordering :=
  intCmp (p.axis_value axis) (median.axis_value axis)

/-- `Node::new`: a fresh childless node. -/
def NTree.newNode {V : Type} (p : Point) (v : V) (ax : Axis) : NTree V :=
  .node ax p v .leaf .leaf

/-- `Option::is_none` on an optional node. -/
def NTree.isLeaf {V : Type} : NTree V → Bool
  | .leaf => true
  | .node _ _ _ _ _ => false

/-- `Node::add`: insert below an existing node, replacing the value if the point is
already the node's median, otherwise descending left on `Less | Equal` and right on
`Greater` (rendered as the test `≠ Greater`), creating a fresh node (with the
cycled axis) at an empty (`is_none`) child slot.  Returns the updated node
together with the previous value, if any.  The `leaf` case is unreachable
(`Node::add` is only invoked on actual nodes). -/
def NTree.addNode {V : Type} (p : Point) (v : V) : NTree V → NTree V × Option V
  | .leaf => (.leaf, none)
  | .node ax md val l r =>
    if p = md then (.node ax md v l r, some val)
    else if cmp_to_point_value md ax p = .gt then
      if r.isLeaf then (.node ax md val l (NTree.newNode p v ax.next), none)
      else
        let res := NTree.addNode p v r
        (.node ax md val l res.1, res.2)
    else
      if l.isLeaf then (.node ax md val (NTree.newNode p v ax.next) r, none)
      else
        let res := NTree.addNode p v l
        (.node ax md val res.1 r, res.2)

/-- `KdTree::add`: insert at the root.  An empty tree gets a root at axis X and
length 1; otherwise `Node::add` runs and the length grows only when no previous
value was replaced. -/
def KdTree.add {V : Type} (t : KdTree V) (p : Point) (v : V) : KdTree V × Option V :=
  match t.root with
  | .leaf => (⟨NTree.newNode p v Axis.X, 1⟩, none)
  | .node ax md val l r =>
    let res := NTree.addNode p v (.node ax md val l r)
    (⟨res.1, if res.2.isNone then t.length + 1 else t.length⟩, res.2)

/-- Observer: the list of (point, value) pairs stored in a subtree, root first. -/
def NTree.pairs {V : Type} : NTree V → List (Point × V)
  | .leaf => []
  | .node _ md v l r => (md, v) :: (l.pairs ++ r.pairs)

/-- Observer: the list of stored points of a subtree. -/
def NTree.points {V : Type} (t : NTree V) : List Point :=
  t.pairs.map Prod.fst

/-- Observer: the value stored for a point, scanning the whole subtree (root first,
left before right). -/
def valueAt {V : Type} : NTree V → Point → Option V
  | .leaf, _ => none
  | .node _ md val l r, p =>
    if p = md then some val
    else
      match valueAt l p with
      | some w => some w
      | none => valueAt r p

/-- The k-d tree geometric invariant (spec §3, invariant 1): at every node with
axis A, each point of the left subtree has axis-A coordinate ≤ the node's, and
each point of the right subtree has axis-A coordinate strictly greater. -/
def Inv {V : Type} : NTree V → Prop
  | .leaf => True
  | .node ax md _ l r =>
    (∀ p ∈ l.points, p.axis_value ax ≤ md.axis_value ax) ∧
    (∀ p ∈ r.points, md.axis_value ax < p.axis_value ax) ∧
    Inv l ∧ Inv r

instance instInvDecidable {V : Type} : (t : NTree V) → Decidable (Inv t)
  | .leaf => .isTrue trivial
  | .node ax md _ l r =>
    have : Decidable (Inv l) := instInvDecidable l
    have : Decidable (Inv r) := instInvDecidable r
    inferInstanceAs (Decidable
      ((∀ p ∈ l.points, p.axis_value ax ≤ md.axis_value ax) ∧
       (∀ p ∈ r.points, md.axis_value ax < p.axis_value ax) ∧
       Inv l ∧ Inv r))

/-- `split_element_at` (utils/mod.rs): split the vector at the given index into the
elements before it, the element at it, and the elements after.  For an in-range
index on a non-empty vector this is `(take i, element i, drop (i+1))`, exactly as
the source computes via `split_off`/`pop`. -/
def split_element_at {α : Type} (v : List α) (i : Nat) : List α × Option α × List α :=
  if v.isEmpty then ([], none, [])
  else (v.take i, v[i]?, v.drop (i + 1))

/-- Lexicographic order on coordinate pairs: Rust tuples of ordered scalars compare
lexicographically, and the selection key is such a tuple. -/
def keyLe (a b : Int × Int) : Bool :=
  if a.1 < b.1 then true else if b.1 < a.1 then false else decide (a.2 ≤ b.2)

/-- Ordered insertion used by the modelled selection sort (stable: an element is
placed before later elements with an equal key). -/
def insertByKey {α : Type} (key : α → Int × Int) (x : α) : List α → List α
  | [] => [x]
  | y :: ys => if keyLe (key x) (key y) then x :: y :: ys else y :: insertByKey key x ys

/-- Stable insertion sort by key. -/
def sortByKey {α : Type} (key : α → Int × Int) : List α → List α
  | [] => []
  | x :: xs => insertByKey key x (sortByKey key xs)

/-- Modelled from the spec: the order-statistic selection routine
`ksmallest_by_key` (its source file `utils/ksmallest.rs` is not in the provided
tree).  Spec §4.1: reorder the sequence in place so that position `k` holds the
element of sorted rank `k`, earlier positions hold keys ≤ it and later positions
keys ≥ it; it fails exactly when `k ≥ N` (which subsumes `N = 0`).  The reordering
is modelled as a stable full sort by key, which satisfies the selection contract;
failure is modelled by `none`. -/
def ksmallest_by_key {α : Type} (v : List α) (k : Nat) (key : α → Int × Int) :
    Option (List α) :=
  if k < v.length then some (sortByKey key v) else none

/-- One measure of pending construction work: each loop iteration either drops an
empty sub-list from the queue or spends one list element; the measure strictly
decreases, so it bounds the number of iterations. -/
def queueMeasure {V : Type} (q : List (List (Point × V) × Axis)) : Nat :=
  2 * (q.map (fun e => e.1.length)).sum + q.length

/-- The selection key used by construction: primarily the coordinate on the
current axis, secondarily the coordinate on the other axis. -/
def constructionKey {V : Type} (ax : Axis) (pv : Point × V) : Int × Int :=
  (pv.1.axis_value ax, pv.1.axis_value ax.next)

/-- The `while let` loop of `KdTree::from_vector`: a FIFO work queue of
(sub-list, axis) items; each non-empty item is partitioned at `mid = len / 2` by
the selection routine, the mid element is inserted through `KdTree::add`, and the
two halves are enqueued with the cycled axis.  `none` models a panic of the
`unwrap`s (or fuel running out, which `from_vector_total` below rules out). -/
def fromVectorLoop {V : Type} :
    Nat → List (List (Point × V) × Axis) → KdTree V → Option (KdTree V)
  | _, [], acc => some acc
  | 0, _ :: _, _ => none
  | fuel + 1, (points, ax) :: rest, acc =>
    if points.isEmpty then fromVectorLoop fuel rest acc
    else
      let mid := points.length / 2
      match ksmallest_by_key points mid (constructionKey ax) with
      | none => none
      | some sorted =>
        let parts := split_element_at sorted mid
        match parts.2.1 with
        | none => none
        | some (np, nv) =>
          fromVectorLoop fuel (rest ++ [(parts.1, ax.next), (parts.2.2, ax.next)])
            (acc.add np nv).1

/-- `KdTree::from_vector`, with panics reified as `none`.  The initial fuel is the
measure of the initial queue, which `from_vector_total` proves sufficient. -/
def KdTree.from_vector_opt {V : Type} (ps : List (Point × V)) : Option (KdTree V) :=
  fromVectorLoop (queueMeasure [(ps, Axis.X)]) [(ps, Axis.X)] KdTree.empty

/-- `KdTree::from_vector` (total form; the `none` case never happens). -/
def KdTree.from_vector {V : Type} (ps : List (Point × V)) : KdTree V :=
  (KdTree.from_vector_opt ps).getD KdTree.empty

/-- The trees reachable through the public constructors: `new`, `add` and
`from_vector`. -/
inductive Reachable {V : Type} : KdTree V → Prop where
  | empty : Reachable KdTree.empty
  | add (t : KdTree V) (p : Point) (v : V) : Reachable t → Reachable (t.add p v).1
  | from_vec (ps : List (Point × V)) : Reachable (KdTree.from_vector ps)

/- Sanity check: `from_vector` followed by three `add`s reproduces byte for byte
the tree asserted by the repository's `test_from_vector`. -/
example :
    (((((KdTree.from_vector
        [(⟨1, 2⟩, 12), (⟨0, 0⟩, 99), (⟨4, 5⟩, 45), (⟨7, 8⟩, 78), (⟨5, 2⟩, 52)]).add
        ⟨0, 0⟩ 0).1.add ⟨2, 9⟩ 29).1.add ⟨2, 8⟩ 28).1 : KdTree Nat) =
      ⟨.node Axis.X ⟨4, 5⟩ 45
        (.node Axis.Y ⟨1, 2⟩ 12
          (.node Axis.X ⟨0, 0⟩ 0 .leaf .leaf)
          (.node Axis.X ⟨2, 9⟩ 29 (.node Axis.Y ⟨2, 8⟩ 28 .leaf .leaf) .leaf))
        (.node Axis.Y ⟨7, 8⟩ 78 (.node Axis.X ⟨5, 2⟩ 52 .leaf .leaf) .leaf), 7⟩ := by
  decide

example :
    ((KdTree.from_vector
        [(⟨1, 2⟩, 12), (⟨0, 0⟩, 99), (⟨4, 5⟩, 45), (⟨7, 8⟩, 78), (⟨5, 2⟩, 52)]).add
        ⟨0, 0⟩ 0).2 = some 99 := by
  decide

/-- A retained candidate: a stored (point, value) pair together with its squared
distance to the active query point.  Modelled from the spec: this is the
`OrdWrapper` pairing (its source file `utils/ordwrapper.rs` is not in the provided
tree); spec §4.2 says such wrappers compare solely by the distance. -/
def Entry (V : Type) : Type := (Point × V) × Int

/-- Ordered insertion into the ascending-by-distance list modelling the
`BinaryHeap<OrdWrapper<..>>`: the maximum sits at the end, `pop` drops the end,
and draining via `into_sorted_vec` is the identity.  Ties resolve arbitrarily in
the heap; the model places a new candidate before equal distances. -/
def insSorted {V : Type} (e : Entry V) : List (Entry V) → List (Entry V)
  | [] => [e]
  | x :: xs => if e.2 ≤ x.2 then e :: x :: xs else x :: insSorted e xs

/-- `i64::max_value()`, the initial value of `min_dist`. -/
def i64Max : Int := 9223372036854775807

/-- `if let Some(candidate_node) = candidate { if plane_dist2 <= min_dist
{ nodes.push(..) } }`: the far child is scheduled only when present and when its
splitting plane is still within reach. -/
def schedCandidate {V : Type} (cand : NTree V) (ok : Bool)
    (s : List (NTree V)) : List (NTree V) :=
  match cand with
  | .leaf => s
  | c => if ok then c :: s else s

/-- `if let Some(next_node) = next { nodes.push(..) }`: the near child is always
scheduled when present (pushed last, hence explored first). -/
def schedNext {V : Type} (next : NTree V) (s : List (NTree V)) : List (NTree V) :=
  match next with
  | .leaf => s
  | n => n :: s

/-- One iteration of the `while let` loop in `KdTree::nearest_neighbors`, acting
on a popped actual node: update `min_dist`, push the candidate and trim the heap
to `k`, pick near (`next`) and far (`candidate`) children by
`cmp_to_point_value` (`Less | Equal` keeps (left, right), `Greater` swaps),
schedule the far child only when the squared axis gap is within the updated
`min_dist`, and push the near child last so it is explored first.  Returns the
new stack, heap and `min_dist`. -/
def nnStep {V : Type} (q : Point) (k : Nat) (ax : Axis) (md : Point) (v : V)
    (l r : NTree V) (rest : List (NTree V)) (heap : List (Entry V)) (m : Int) :
    List (NTree V) × List (Entry V) × Int :=
  let node_dist := md.squared_dist q
  let m' := min m node_dist
  let heap1 := insSorted ((md, v), node_dist) heap
  let heap2 := if k < heap1.length then heap1.dropLast else heap1
  let next := if cmp_to_point_value md ax q = .gt then r else l
  let cand := if cmp_to_point_value md ax q = .gt then l else r
  let plane_dist := q.axis_value ax - md.axis_value ax
  let stack1 := schedCandidate cand (decide (plane_dist * plane_dist ≤ m')) rest
  let stack2 := schedNext next stack1
  (stack2, heap2, m')

/-- The `while let` loop of `KdTree::nearest_neighbors` over the explicit node
stack.  Fuel counts loop iterations; `stackWeight` below bounds them, so with the
fuel used by `nearest_neighbors` the zero-fuel case is unreachable. -/
def nnLoopF {V : Type} (q : Point) (k : Nat) :
    Nat → List (NTree V) → List (Entry V) → Int → List (Entry V)
  | _, [], heap, _ => heap
  | 0, _ :: _, heap, _ => heap
  | fuel + 1, .leaf :: rest, heap, m => nnLoopF q k fuel rest heap m
  | fuel + 1, .node ax md v l r :: rest, heap, m =>
    let s := nnStep q k ax md v l r rest heap m
    nnLoopF q k fuel s.1 s.2.1 s.2.2

/-- Nodes plus leaves of a subtree: an upper bound on the loop iterations spent on
that subtree. -/
def NTree.weight {V : Type} : NTree V → Nat
  | .leaf => 1
  | .node _ _ _ l r => 1 + l.weight + r.weight

/-- Total weight of a node stack. -/
def stackWeight {V : Type} (s : List (NTree V)) : Nat :=
  (s.map NTree.weight).sum

/-- `KdTree::nearest_neighbors`: at most the k nearest stored (point, value)
pairs, in ascending squared-distance order; empty when the tree is empty or
`k = 0`. -/
def KdTree.nearest_neighbors {V : Type} (t : KdTree V) (p : Point) (k : Nat) :
    List (Point × V) :=
  match t.root with
  | .leaf => []
  | .node ax md v l r =>
    if k = 0 then []
    else
      (nnLoopF p k (NTree.weight (.node ax md v l r)) [.node ax md v l r] []
        i64Max).map Prod.fst

/-- `KdTree::nearest_neighbor`: the single result (or none) of
`nearest_neighbors(point, 1)`. -/
def KdTree.nearest_neighbor {V : Type} (t : KdTree V) (p : Point) :
    Option (Point × V) :=
  (t.nearest_neighbors p 1).head?

/- Sanity check: the four queries of the repository's
`test_basic_nearest_neighbor`. -/
example :
    (((((KdTree.empty.add ⟨3, 0⟩ 0).1.add ⟨4, 6⟩ 1).1.add ⟨4, 5⟩ 2).1.add
        ⟨100, 100⟩ 3).1 : KdTree Nat).nearest_neighbor ⟨3, 0⟩ = some (⟨3, 0⟩, 0) ∧
    (((((KdTree.empty.add ⟨3, 0⟩ 0).1.add ⟨4, 6⟩ 1).1.add ⟨4, 5⟩ 2).1.add
        ⟨100, 100⟩ 3).1 : KdTree Nat).nearest_neighbor ⟨3, 1⟩ = some (⟨3, 0⟩, 0) ∧
    (((((KdTree.empty.add ⟨3, 0⟩ 0).1.add ⟨4, 6⟩ 1).1.add ⟨4, 5⟩ 2).1.add
        ⟨100, 100⟩ 3).1 : KdTree Nat).nearest_neighbor ⟨2, 5⟩ = some (⟨4, 5⟩, 2) ∧
    (((((KdTree.empty.add ⟨3, 0⟩ 0).1.add ⟨4, 6⟩ 1).1.add ⟨4, 5⟩ 2).1.add
        ⟨100, 100⟩ 3).1 : KdTree Nat).nearest_neighbor ⟨0, 0⟩ = some (⟨3, 0⟩, 0) := by
  decide

/- Sanity check: `test_nearest_neighbor_comes_after_candidate` (spec Example C). -/
example :
    ((((KdTree.empty.add ⟨0, 1⟩ 0).1.add ⟨0, 0⟩ 1).1.add ⟨0, 2⟩ 2).1
        : KdTree Nat).nearest_neighbor ⟨1, 2⟩ = some (⟨0, 2⟩, 2) := by
  decide

/-- The full data-structure invariant maintained by the public constructors:
the geometric routing rule, no duplicate stored points, and a `length` field
that counts the stored points. -/
def SInv {V : Type} (t : KdTree V) : Prop :=
  Inv t.root ∧ t.root.points.Nodup ∧ t.length = t.root.points.length

/-- The pairs still waiting in the construction queue. -/
def queuePairs {V : Type} : List (List (Point × V) × Axis) → List (Point × V)
  | [] => []
  | e :: rest => e.1 ++ queuePairs rest

/-- Points stored in the subtrees still waiting on the work stack. -/
def stackPoints {V : Type} : List (NTree V) → List Point
  | [] => []
  | t :: s => t.points ++ stackPoints s

/-- Points of the candidates currently retained in the heap. -/
def heapPoints {V : Type} (heap : List (Entry V)) : List Point :=
  heap.map (fun e => e.1.1)

/-- The heap property maintained by the query loop: at most k candidates, sorted
ascending by recorded distance, and every recorded distance is the squared
distance of the paired point to the query point. -/
def HeapOk {V : Type} (q : Point) (k : Nat) (heap : List (Entry V)) : Prop :=
  heap.length ≤ k ∧ heap.Pairwise (fun a b => a.2 ≤ b.2) ∧
  ∀ e ∈ heap, e.2 = Point.squared_dist e.1.1 q

/-- The index {(0,0) ↦ 0, (10,5) ↦ 1, (9,6) ↦ 2} built by incremental insertion:
root (0,0) on axis X, right child (10,5) on axis Y, whose right child is (9,6). -/
def bugTree : KdTree Nat :=
  (((KdTree.empty.add ⟨0, 0⟩ 0).1.add ⟨10, 5⟩ 1).1.add ⟨9, 6⟩ 2).1

/-- The index of spec Example C: points (0,1), (0,0), (0,2) with unit payloads,
inserted in that order. -/
def exampleCTree : KdTree Unit :=
  (((KdTree.empty.add ⟨0, 1⟩ ()).1.add ⟨0, 0⟩ ()).1.add ⟨0, 2⟩ ()).1

/-- An input list with a duplicated point: (0,0) carries value 0 then value 1,
and the last pair carrying (0,0) has value 1. -/
def dupPairs : List (Point × Nat) := [(⟨0, 0⟩, 0), (⟨0, 0⟩, 1), (⟨1, 1⟩, 2)]

/-- Ordered insertion by squared distance to a query point (spec-side reference
only, used to state the brute-force scan of spec §8). -/
def insertByDist {V : Type} (q : Point) (x : Point × V) :
    List (Point × V) → List (Point × V)
  | [] => [x]
  | y :: ys =>
    if Point.squared_dist x.1 q ≤ Point.squared_dist y.1 q then x :: y :: ys
    else y :: insertByDist q x ys

/-- Insertion sort by squared distance to a query point (spec-side reference). -/
def sortByDist {V : Type} (q : Point) : List (Point × V) → List (Point × V)
  | [] => []
  | x :: xs => insertByDist q x (sortByDist q xs)

/-- The brute-force reference of spec §8: all stored pairs sorted ascending by
squared distance to the query point, truncated to k results. -/
def brute_k_nearest {V : Type} (q : Point) (k : Nat) (prs : List (Point × V)) :
    List (Point × V) :=
  (sortByDist q prs).take k


/-! ### Basic facts about comparison, observers and `add` -/

theorem intCmp_lt_iff {a b : Int} : intCmp a b = .lt ↔ a < b := by
  unfold intCmp
  split_ifs with h1 h2 <;> simp_all

theorem intCmp_eq_iff {a b : Int} : intCmp a b = .eq ↔ a = b := by
  unfold intCmp
  split_ifs with h1 h2 <;> simp_all
  all_goals omega

theorem intCmp_gt_iff {a b : Int} : intCmp a b = .gt ↔ b < a := by
  unfold intCmp
  split_ifs with h1 h2 <;> simp_all
  all_goals omega

theorem intCmp_ne_gt_iff {a b : Int} : ¬intCmp a b = .gt ↔ a ≤ b := by
  rw [not_iff_comm, intCmp_gt_iff]
  omega

@[simp] theorem points_leaf {V : Type} : (NTree.leaf : NTree V).points = [] := rfl

@[simp] theorem points_node {V : Type} (ax : Axis) (md : Point) (v : V)
    (l r : NTree V) :
    (NTree.node ax md v l r).points = md :: (l.points ++ r.points) := by
  simp [NTree.points, NTree.pairs]

@[simp] theorem pairs_leaf {V : Type} : (NTree.leaf : NTree V).pairs = [] := rfl

@[simp] theorem pairs_node {V : Type} (ax : Axis) (md : Point) (v : V)
    (l r : NTree V) :
    (NTree.node ax md v l r).pairs = (md, v) :: (l.pairs ++ r.pairs) := rfl

@[simp] theorem valueAt_leaf {V : Type} (p : Point) :
    valueAt (NTree.leaf : NTree V) p = none := rfl

/-- One-step unfolding of `valueAt` on an actual node. -/
theorem valueAt_node {V : Type} (p : Point) (ax : Axis) (md : Point) (val : V)
    (l r : NTree V) :
    valueAt (NTree.node ax md val l r) p =
      if p = md then some val
      else
        match valueAt l p with
        | some w => some w
        | none => valueAt r p := rfl

theorem valueAt_eq_none_iff {V : Type} (t : NTree V) (p : Point) :
    valueAt t p = none ↔ p ∉ t.points := by
  induction t with
  | leaf => simp [valueAt]
  | node ax md val l r ihl ihr =>
    simp only [points_node, List.mem_cons, List.mem_append, valueAt]
    by_cases hp : p = md
    · simp [hp]
    · simp only [if_neg hp]
      cases hvl : valueAt l p with
      | some w =>
        have : p ∈ l.points := by
          by_contra hmem
          rw [← ihl] at hmem
          simp [hvl] at hmem
        simp [hp, this]
      | none =>
        have hnl : p ∉ l.points := (ihl).mp hvl
        simp [hp, hnl, ihr]

theorem mem_points_of_valueAt_some {V : Type} {t : NTree V} {p : Point} {w : V}
    (h : valueAt t p = some w) : p ∈ t.points := by
  by_contra hmem
  rw [← valueAt_eq_none_iff] at hmem
  simp [h] at hmem

theorem Inv_node {V : Type} {ax : Axis} {md : Point} {v : V} {l r : NTree V} :
    Inv (NTree.node ax md v l r) ↔
      (∀ p ∈ l.points, p.axis_value ax ≤ md.axis_value ax) ∧
      (∀ p ∈ r.points, md.axis_value ax < p.axis_value ax) ∧
      Inv l ∧ Inv r := Iff.rfl

theorem not_mem_right_of_le {V : Type} {ax : Axis} {md p : Point} {v : V}
    {l r : NTree V} (hinv : Inv (NTree.node ax md v l r))
    (hle : p.axis_value ax ≤ md.axis_value ax) : p ∉ r.points := by
  intro hmem
  exact absurd (hinv.2.1 p hmem) (by omega)

theorem not_mem_left_of_gt {V : Type} {ax : Axis} {md p : Point} {v : V}
    {l r : NTree V} (hinv : Inv (NTree.node ax md v l r))
    (hgt : md.axis_value ax < p.axis_value ax) : p ∉ l.points := by
  intro hmem
  exact absurd (hinv.1 p hmem) (by omega)

@[simp] theorem isLeaf_leaf {V : Type} : (NTree.leaf : NTree V).isLeaf = true := rfl

@[simp] theorem isLeaf_node {V : Type} (ax : Axis) (md : Point) (v : V)
    (l r : NTree V) : (NTree.node ax md v l r).isLeaf = false := rfl

/-- One-step unfolding of `Node::add` on an actual node. -/
theorem addNode_node {V : Type} (p : Point) (v : V) (ax : Axis) (md : Point)
    (val : V) (l r : NTree V) :
    NTree.addNode p v (NTree.node ax md val l r) =
      if p = md then (.node ax md v l r, some val)
      else if cmp_to_point_value md ax p = .gt then
        if r.isLeaf then (.node ax md val l (NTree.newNode p v ax.next), none)
        else (.node ax md val l (NTree.addNode p v r).1, (NTree.addNode p v r).2)
      else
        if l.isLeaf then (.node ax md val (NTree.newNode p v ax.next) r, none)
        else (.node ax md val (NTree.addNode p v l).1 r, (NTree.addNode p v l).2) :=
  rfl

theorem addNode_snd_eq_valueAt {V : Type} (t : NTree V) (hinv : Inv t)
    (p : Point) (v : V) : (NTree.addNode p v t).2 = valueAt t p := by
  induction t with
  | leaf => rfl
  | node ax md val l r ihl ihr =>
    rw [addNode_node]
    by_cases hp : p = md
    · subst hp; simp [valueAt]
    · by_cases hc : cmp_to_point_value md ax p = .gt
      · have hpgt : md.axis_value ax < p.axis_value ax := by
          rw [cmp_to_point_value, intCmp_gt_iff] at hc
          exact hc
        have hnl : valueAt l p = none :=
          (valueAt_eq_none_iff l p).mpr (not_mem_left_of_gt hinv hpgt)
        cases r with
        | leaf =>
          rw [if_neg hp, if_pos hc, isLeaf_leaf, if_pos rfl,
            valueAt_node p ax md val l .leaf, if_neg hp, hnl]
          rfl
        | node ax2 md2 val2 l2 r2 =>
          rw [if_neg hp, if_pos hc, isLeaf_node]
          rw [if_neg (by simp)]
          rw [ihr hinv.2.2.2,
            valueAt_node p ax md val l (NTree.node ax2 md2 val2 l2 r2),
            if_neg hp, hnl]
      · have hple : p.axis_value ax ≤ md.axis_value ax := by
          rw [cmp_to_point_value, intCmp_ne_gt_iff] at hc
          exact hc
        have hnr : valueAt r p = none :=
          (valueAt_eq_none_iff r p).mpr (not_mem_right_of_le hinv hple)
        cases l with
        | leaf =>
          rw [if_neg hp, if_neg hc, isLeaf_leaf, if_pos rfl,
            valueAt_node p ax md val .leaf r, if_neg hp, valueAt_leaf, hnr]
        | node ax2 md2 val2 l2 r2 =>
          rw [if_neg hp, if_neg hc, isLeaf_node]
          rw [if_neg (by simp)]
          rw [ihl hinv.2.2.1,
            valueAt_node p ax md val (NTree.node ax2 md2 val2 l2 r2) r,
            if_neg hp]
          cases hvl : valueAt (NTree.node ax2 md2 val2 l2 r2) p with
          | some w => rfl
          | none => simp [hnr]

theorem Inv_newNode {V : Type} (p : Point) (v : V) (ax : Axis) :
    Inv (NTree.newNode p v ax) := by
  exact ⟨by simp, by simp, trivial, trivial⟩

theorem valueAt_newNode_self {V : Type} (p : Point) (v : V) (ax : Axis) :
    valueAt (NTree.newNode p v ax) p = some v := by
  rw [NTree.newNode, valueAt_node, if_pos rfl]

theorem valueAt_addNode_self {V : Type} (t : NTree V) (hinv : Inv t)
    (hne : t.isLeaf = false) (p : Point) (v : V) :
    valueAt (NTree.addNode p v t).1 p = some v := by
  induction t with
  | leaf => simp at hne
  | node ax md val l r ihl ihr =>
    rw [addNode_node]
    by_cases hp : p = md
    · subst hp
      rw [if_pos rfl, valueAt_node, if_pos rfl]
    · by_cases hc : cmp_to_point_value md ax p = .gt
      · have hpgt : md.axis_value ax < p.axis_value ax := by
          rw [cmp_to_point_value, intCmp_gt_iff] at hc
          exact hc
        have hnl : valueAt l p = none :=
          (valueAt_eq_none_iff l p).mpr (not_mem_left_of_gt hinv hpgt)
        cases r with
        | leaf =>
          rw [if_neg hp, if_pos hc, isLeaf_leaf, if_pos rfl,
            valueAt_node p ax md val l (NTree.newNode p v ax.next), if_neg hp,
            hnl, valueAt_newNode_self]
        | node ax2 md2 val2 l2 r2 =>
          rw [if_neg hp, if_pos hc, isLeaf_node, if_neg (by simp),
            valueAt_node p ax md val l
              (NTree.addNode p v (NTree.node ax2 md2 val2 l2 r2)).1,
            if_neg hp, hnl, ihr hinv.2.2.2 rfl]
      · cases l with
        | leaf =>
          rw [if_neg hp, if_neg hc, isLeaf_leaf, if_pos rfl,
            valueAt_node p ax md val (NTree.newNode p v ax.next) r, if_neg hp,
            valueAt_newNode_self]
        | node ax2 md2 val2 l2 r2 =>
          rw [if_neg hp, if_neg hc, isLeaf_node, if_neg (by simp),
            valueAt_node p ax md val
              (NTree.addNode p v (NTree.node ax2 md2 val2 l2 r2)).1 r,
            if_neg hp, ihl hinv.2.2.1 rfl]

theorem points_addNode_of_some {V : Type} (t : NTree V) (p : Point) (v : V)
    {w : V} (h : (NTree.addNode p v t).2 = some w) :
    (NTree.addNode p v t).1.points = t.points := by
  induction t with
  | leaf => rfl
  | node ax md val l r ihl ihr =>
    rw [addNode_node] at h ⊢
    by_cases hp : p = md
    · rw [if_pos hp]; simp
    · by_cases hc : cmp_to_point_value md ax p = .gt
      · cases r with
        | leaf => rw [if_neg hp, if_pos hc, isLeaf_leaf, if_pos rfl] at h; simp at h
        | node ax2 md2 val2 l2 r2 =>
          rw [if_neg hp, if_pos hc, isLeaf_node, if_neg (by simp)] at h ⊢
          simp only [points_node, ihr h]
      · cases l with
        | leaf => rw [if_neg hp, if_neg hc, isLeaf_leaf, if_pos rfl] at h; simp at h
        | node ax2 md2 val2 l2 r2 =>
          rw [if_neg hp, if_neg hc, isLeaf_node, if_neg (by simp)] at h ⊢
          simp only [points_node, ihl h]

theorem points_addNode_of_none {V : Type} (t : NTree V) (p : Point) (v : V)
    (hne : t.isLeaf = false) (h : (NTree.addNode p v t).2 = none) :
    (NTree.addNode p v t).1.points.Perm (p :: t.points) := by
  induction t with
  | leaf => simp at hne
  | node ax md val l r ihl ihr =>
    rw [addNode_node] at h ⊢
    by_cases hp : p = md
    · rw [if_pos hp] at h; simp at h
    · by_cases hc : cmp_to_point_value md ax p = .gt
      · cases r with
        | leaf =>
          rw [if_neg hp, if_pos hc, isLeaf_leaf, if_pos rfl]
          simp only [points_node, points_leaf, NTree.newNode, List.append_nil]
          exact ((List.perm_append_singleton p l.points).cons md).trans
            (List.Perm.swap p md l.points)
        | node ax2 md2 val2 l2 r2 =>
          rw [if_neg hp, if_pos hc, isLeaf_node, if_neg (by simp)] at h ⊢
          have hperm := ihr rfl h
          simp only [points_node] at hperm ⊢
          exact (((List.Perm.append_left l.points hperm).cons md).trans
            (List.perm_middle.cons md)).trans (List.Perm.swap p md _)
      · cases l with
        | leaf =>
          rw [if_neg hp, if_neg hc, isLeaf_leaf, if_pos rfl]
          simp only [points_node, points_leaf, NTree.newNode, List.nil_append]
          exact List.Perm.swap p md r.points
        | node ax2 md2 val2 l2 r2 =>
          rw [if_neg hp, if_neg hc, isLeaf_node, if_neg (by simp)] at h ⊢
          have hperm := ihl rfl h
          simp only [points_node] at hperm ⊢
          exact (((List.Perm.append_right r.points hperm).cons md)).trans
            (List.Perm.swap p md _)

theorem mem_points_addNode {V : Type} {t : NTree V} {p x : Point} {v : V}
    (h : x ∈ (NTree.addNode p v t).1.points) : x = p ∨ x ∈ t.points := by
  cases t with
  | leaf => simp [NTree.addNode] at h
  | node ax md val l r =>
    cases hsnd : (NTree.addNode p v (NTree.node ax md val l r)).2 with
    | some w =>
      rw [points_addNode_of_some _ p v hsnd] at h
      exact Or.inr h
    | none =>
      have hperm := points_addNode_of_none (NTree.node ax md val l r) p v rfl hsnd
      have := hperm.mem_iff.mp h
      simpa using this

theorem pairs_addNode_subset {V : Type} {t : NTree V} {p : Point} {v : V}
    {x : Point × V} (h : x ∈ (NTree.addNode p v t).1.pairs) :
    x = (p, v) ∨ x ∈ t.pairs := by
  induction t with
  | leaf => simp [NTree.addNode] at h
  | node ax md val l r ihl ihr =>
    rw [addNode_node] at h
    by_cases hp : p = md
    · rw [if_pos hp] at h
      simp only [pairs_node, List.mem_cons, List.mem_append] at h ⊢
      rcases h with h | h | h
      · exact Or.inl (by rw [h, hp])
      · exact Or.inr (Or.inr (Or.inl h))
      · exact Or.inr (Or.inr (Or.inr h))
    · by_cases hc : cmp_to_point_value md ax p = .gt
      · cases r with
        | leaf =>
          rw [if_neg hp, if_pos hc, isLeaf_leaf, if_pos rfl] at h
          simp only [pairs_node, NTree.newNode, pairs_leaf, List.append_nil,
            List.mem_cons, List.mem_append] at h ⊢
          tauto
        | node ax2 md2 val2 l2 r2 =>
          rw [if_neg hp, if_pos hc, isLeaf_node, if_neg (by simp)] at h
          simp only [pairs_node, List.mem_cons, List.mem_append] at h ⊢
          rcases h with h | h | h
          · tauto
          · tauto
          · rcases ihr h with h2 | h2
            · exact Or.inl h2
            · simp only [pairs_node, List.mem_cons, List.mem_append] at h2
              tauto
      · cases l with
        | leaf =>
          rw [if_neg hp, if_neg hc, isLeaf_leaf, if_pos rfl] at h
          simp only [pairs_node, NTree.newNode, pairs_leaf, List.nil_append,
            List.mem_cons, List.mem_append] at h ⊢
          tauto
        | node ax2 md2 val2 l2 r2 =>
          rw [if_neg hp, if_neg hc, isLeaf_node, if_neg (by simp)] at h
          simp only [pairs_node, List.mem_cons, List.mem_append] at h ⊢
          rcases h with h | h | h
          · tauto
          · rcases ihl h with h2 | h2
            · exact Or.inl h2
            · simp only [pairs_node, List.mem_cons, List.mem_append] at h2
              tauto
          · tauto

theorem Inv_addNode {V : Type} (t : NTree V) (hinv : Inv t) (p : Point) (v : V) :
    Inv (NTree.addNode p v t).1 := by
  induction t with
  | leaf => exact trivial
  | node ax md val l r ihl ihr =>
    obtain ⟨hle, hgt, hil, hir⟩ := hinv
    rw [addNode_node]
    by_cases hp : p = md
    · rw [if_pos hp]
      exact ⟨hle, hgt, hil, hir⟩
    · by_cases hc : cmp_to_point_value md ax p = .gt
      · have hpgt : md.axis_value ax < p.axis_value ax := by
          rw [cmp_to_point_value, intCmp_gt_iff] at hc
          exact hc
        cases r with
        | leaf =>
          rw [if_pos hc, isLeaf_leaf, if_pos rfl, if_neg hp]
          refine ⟨hle, ?_, hil, Inv_newNode p v ax.next⟩
          intro x hx
          simp [NTree.newNode] at hx
          rw [hx]
          exact hpgt
        | node ax2 md2 val2 l2 r2 =>
          rw [if_neg hp, if_pos hc, isLeaf_node, if_neg (by simp)]
          refine ⟨hle, ?_, hil, ihr hir⟩
          intro x hx
          rcases mem_points_addNode hx with h2 | h2
          · rw [h2]; exact hpgt
          · exact hgt x h2
      · have hple : p.axis_value ax ≤ md.axis_value ax := by
          rw [cmp_to_point_value, intCmp_ne_gt_iff] at hc
          exact hc
        cases l with
        | leaf =>
          rw [if_neg hc, isLeaf_leaf, if_pos rfl, if_neg hp]
          refine ⟨?_, hgt, Inv_newNode p v ax.next, hir⟩
          intro x hx
          simp [NTree.newNode] at hx
          rw [hx]
          exact hple
        | node ax2 md2 val2 l2 r2 =>
          rw [if_neg hp, if_neg hc, isLeaf_node, if_neg (by simp)]
          refine ⟨?_, hgt, ihl hil, hir⟩
          intro x hx
          rcases mem_points_addNode hx with h2 | h2
          · rw [h2]; exact hple
          · exact hle x h2

theorem nodup_points_addNode {V : Type} (t : NTree V) (hinv : Inv t)
    (hnd : t.points.Nodup) (p : Point) (v : V) :
    (NTree.addNode p v t).1.points.Nodup := by
  cases t with
  | leaf => simp [NTree.addNode]
  | node ax md val l r =>
    cases hsnd : (NTree.addNode p v (NTree.node ax md val l r)).2 with
    | some w => rw [points_addNode_of_some _ p v hsnd]; exact hnd
    | none =>
      have hperm := points_addNode_of_none (NTree.node ax md val l r) p v rfl hsnd
      have hnotmem : p ∉ (NTree.node ax md val l r).points := by
        rw [← valueAt_eq_none_iff]
        rw [← addNode_snd_eq_valueAt _ hinv p v]
        exact hsnd
      exact hperm.symm.nodup (List.Nodup.cons hnotmem hnd)

theorem SInv_empty {V : Type} : SInv (KdTree.empty : KdTree V) :=
  ⟨trivial, List.nodup_nil, rfl⟩

theorem add_root_leaf {V : Type} (len : Nat) (p : Point) (v : V) :
    KdTree.add ⟨.leaf, len⟩ p v = (⟨NTree.newNode p v Axis.X, 1⟩, none) := rfl

theorem add_root_node {V : Type} (len : Nat) (p : Point) (v : V) (ax : Axis)
    (md : Point) (val : V) (l r : NTree V) :
    KdTree.add ⟨.node ax md val l r, len⟩ p v =
      (⟨(NTree.addNode p v (.node ax md val l r)).1,
        if (NTree.addNode p v (.node ax md val l r)).2.isNone then len + 1
        else len⟩,
       (NTree.addNode p v (.node ax md val l r)).2) := rfl

theorem SInv_add {V : Type} (t : KdTree V) (hs : SInv t) (p : Point) (v : V) :
    SInv (t.add p v).1 := by
  obtain ⟨root, len⟩ := t
  obtain ⟨hinv, hnd, hlen⟩ := hs
  cases root with
  | leaf =>
    rw [add_root_leaf]
    exact ⟨Inv_newNode p v Axis.X, by simp [NTree.newNode], by simp [NTree.newNode]⟩
  | node ax md val l r =>
    rw [add_root_node]
    refine ⟨Inv_addNode _ hinv p v, nodup_points_addNode _ hinv hnd p v, ?_⟩
    simp only at hlen
    cases hsnd : (NTree.addNode p v (NTree.node ax md val l r)).2 with
    | some w =>
      simp [points_addNode_of_some _ p v hsnd, hlen]
    | none =>
      have hperm := points_addNode_of_none (NTree.node ax md val l r) p v rfl hsnd
      simp [hperm.length_eq, hlen]

/-- `Reachable` trees satisfy the structural invariant (the `from_vector` case is
finished later, once the construction loop lemmas are available). -/
theorem SInv_of_add_chain {V : Type} (t : KdTree V) (ps : List (Point × V))
    (hs : SInv t) :
    SInv (ps.foldl (fun acc pr => (acc.add pr.1 pr.2).1) t) := by
  induction ps generalizing t with
  | nil => exact hs
  | cons pr rest ih => exact ih _ (SInv_add t hs pr.1 pr.2)

/-! ### Construction lemmas -/

theorem insertByKey_perm {α : Type} (key : α → Int × Int) (x : α) (l : List α) :
    (insertByKey key x l).Perm (x :: l) := by
  induction l with
  | nil => exact List.Perm.refl _
  | cons y ys ih =>
    rw [insertByKey]
    split_ifs
    · exact List.Perm.refl _
    · exact (ih.cons y).trans (List.Perm.swap x y ys)

theorem sortByKey_perm {α : Type} (key : α → Int × Int) (l : List α) :
    (sortByKey key l).Perm l := by
  induction l with
  | nil => exact List.Perm.refl _
  | cons x xs ih => exact (insertByKey_perm key x (sortByKey key xs)).trans (ih.cons x)

theorem sortByKey_length {α : Type} (key : α → Int × Int) (l : List α) :
    (sortByKey key l).length = l.length :=
  (sortByKey_perm key l).length_eq

theorem ksmallest_by_key_none_iff {α : Type} (v : List α) (k : Nat)
    (key : α → Int × Int) : ksmallest_by_key v k key = none ↔ v.length ≤ k := by
  rw [ksmallest_by_key]
  split_ifs with h
  · simp; omega
  · simp; omega

theorem ksmallest_by_key_some {α : Type} {v : List α} {k : Nat}
    {key : α → Int × Int} {out : List α} (h : ksmallest_by_key v k key = some out) :
    out.Perm v := by
  rw [ksmallest_by_key] at h
  split_ifs at h
  cases h
  exact sortByKey_perm key v

theorem split_element_at_eq {α : Type} (v : List α) (i : Nat) (h : i < v.length) :
    split_element_at v i = (v.take i, some v[i], v.drop (i + 1)) := by
  rw [split_element_at, if_neg, List.getElem?_eq_getElem h]
  intro hemp
  rw [List.isEmpty_iff] at hemp
  subst hemp
  simp at h

theorem take_getElem_drop {α : Type} (v : List α) (i : Nat) (h : i < v.length) :
    v.take i ++ v[i] :: v.drop (i + 1) = v := by
  rw [← List.drop_eq_getElem_cons h, List.take_append_drop]

theorem mem_points_add_iff {V : Type} (t : KdTree V) (hinv : Inv t.root)
    (p x : Point) (v : V) :
    x ∈ (t.add p v).1.root.points ↔ x = p ∨ x ∈ t.root.points := by
  obtain ⟨root, len⟩ := t
  cases root with
  | leaf =>
    rw [add_root_leaf]
    simp [NTree.newNode]
  | node ax md val l r =>
    rw [add_root_node]
    cases hsnd : (NTree.addNode p v (NTree.node ax md val l r)).2 with
    | some w =>
      have hmem : p ∈ (NTree.node ax md val l r).points := by
        apply mem_points_of_valueAt_some
        rw [← addNode_snd_eq_valueAt _ hinv p v]
        exact hsnd
      simp only [points_addNode_of_some _ p v hsnd]
      constructor
      · exact Or.inr
      · rintro (h | h)
        · rw [h]; exact hmem
        · exact h
    | none =>
      have hperm := points_addNode_of_none (NTree.node ax md val l r) p v rfl hsnd
      rw [hperm.mem_iff]
      simp

theorem pairs_add_subset {V : Type} (t : KdTree V) (p : Point) (v : V)
    {pr : Point × V} (h : pr ∈ (t.add p v).1.root.pairs) :
    pr = (p, v) ∨ pr ∈ t.root.pairs := by
  obtain ⟨root, len⟩ := t
  cases root with
  | leaf =>
    rw [add_root_leaf] at h
    simp [NTree.newNode] at h
    exact Or.inl (by simp [h])
  | node ax md val l r =>
    rw [add_root_node] at h
    exact pairs_addNode_subset h

/-- One-step unfolding of the construction loop on a queued item. -/
theorem fromVectorLoop_cons {V : Type} (fuel : Nat) (points : List (Point × V))
    (ax : Axis) (rest : List (List (Point × V) × Axis)) (acc : KdTree V) :
    fromVectorLoop (fuel + 1) ((points, ax) :: rest) acc =
      if points.isEmpty then fromVectorLoop fuel rest acc
      else
        match ksmallest_by_key points (points.length / 2) (constructionKey ax) with
        | none => none
        | some sorted =>
          match (split_element_at sorted (points.length / 2)).2.1 with
          | none => none
          | some (np, nv) =>
            fromVectorLoop fuel
              (rest ++ [((split_element_at sorted (points.length / 2)).1, ax.next),
                ((split_element_at sorted (points.length / 2)).2.2, ax.next)])
              (acc.add np nv).1 := rfl

theorem queuePairs_append {V : Type} (q1 q2 : List (List (Point × V) × Axis)) :
    queuePairs (q1 ++ q2) = queuePairs q1 ++ queuePairs q2 := by
  induction q1 with
  | nil => rfl
  | cons e rest ih => simp [queuePairs, ih]

/-- Main lemma about the construction loop: with enough fuel it succeeds, it
preserves the structural invariant, the resulting point set is the initial point
set plus every queued point, and every stored pair comes from the accumulator or
the queue. -/
theorem fromVectorLoop_spec {V : Type} :
    ∀ (fuel : Nat) (queue : List (List (Point × V) × Axis)) (acc : KdTree V),
      queueMeasure queue ≤ fuel → SInv acc →
      ∃ out, fromVectorLoop fuel queue acc = some out ∧ SInv out ∧
        (∀ x, x ∈ out.root.points ↔
          x ∈ acc.root.points ∨ x ∈ (queuePairs queue).map Prod.fst) ∧
        (∀ pr ∈ out.root.pairs, pr ∈ acc.root.pairs ∨ pr ∈ queuePairs queue) := by
  intro fuel
  induction fuel with
  | zero =>
    intro queue acc hm hs
    cases queue with
    | nil => exact ⟨acc, rfl, hs, by simp [queuePairs], by simp [queuePairs]⟩
    | cons e rest =>
      exfalso
      simp only [queueMeasure, List.map_cons, List.sum_cons, List.length_cons]
        at hm
      omega
  | succ fuel ih =>
    intro queue acc hm hs
    cases queue with
    | nil => exact ⟨acc, rfl, hs, by simp [queuePairs], by simp [queuePairs]⟩
    | cons e rest =>
      obtain ⟨points, ax⟩ := e
      by_cases hemp : points.isEmpty
      · have hpts0 : points = [] := List.isEmpty_iff.mp hemp
        subst hpts0
        rw [fromVectorLoop_cons, if_pos hemp]
        have hm2 : queueMeasure rest ≤ fuel := by
          simp only [queueMeasure, List.map_cons, List.sum_cons, List.length_cons,
            List.length_nil] at hm ⊢
          omega
        obtain ⟨out, heq, hsout, hpts, hprs⟩ := ih rest acc hm2 hs
        exact ⟨out, heq, hsout, by simpa [queuePairs] using hpts,
          by simpa [queuePairs] using hprs⟩
      · have hlen : 0 < points.length := by
          cases points with
          | nil => simp at hemp
          | cons a as => simp
        have hmid : points.length / 2 < points.length :=
          Nat.div_lt_self hlen one_lt_two
        have hslen := sortByKey_length (constructionKey (V := V) ax) points
        have hmid2 :
            points.length / 2 < (sortByKey (constructionKey ax) points).length := by
          omega
        rw [fromVectorLoop_cons, if_neg hemp]
        split
        · next hks =>
          rw [ksmallest_by_key_none_iff] at hks
          omega
        · next sorted hks =>
          have hsorted : sorted = sortByKey (constructionKey ax) points := by
            rw [ksmallest_by_key, if_pos hmid] at hks
            injection hks with h
            exact h.symm
          subst hsorted
          rw [split_element_at_eq _ _ hmid2]
          split
          · next hnone => simp at hnone
          · next np nv hsome =>
          have he : (sortByKey (constructionKey ax) points)[points.length / 2] =
              (np, nv) := by
            simpa using hsome
          set S : List (Point × V) := sortByKey (constructionKey ax) points with hS
          have hrecon :
              S.take (points.length / 2) ++ (np, nv) ::
                S.drop (points.length / 2 + 1) = S := by
            rw [← he]
            exact take_getElem_drop _ _ hmid2
          have hm2 : queueMeasure
              (rest ++ [(S.take (points.length / 2), ax.next),
                (S.drop (points.length / 2 + 1), ax.next)]) ≤ fuel := by
            simp only [queueMeasure, List.map_append, List.map_cons, List.map_nil,
              List.sum_append, List.sum_cons, List.sum_nil, List.length_append,
              List.length_cons, List.length_nil, List.length_take,
              List.length_drop] at hm ⊢
            omega
          have hsacc2 : SInv (acc.add np nv).1 := SInv_add acc hs np nv
          obtain ⟨out, heq, hsout, hpts, hprs⟩ := ih _ _ hm2 hsacc2
          have hsortmem : ∀ pr : Point × V, pr ∈ points ↔ pr ∈ S :=
            fun pr => (sortByKey_perm (constructionKey ax) points).mem_iff.symm
          have hmidmem : (np, nv) ∈ points := by
            rw [hsortmem, ← hrecon]
            exact List.mem_append.mpr (Or.inr (List.mem_cons_self _ _))
          have htk : ∀ pr : Point × V, pr ∈ S.take (points.length / 2) →
              pr ∈ points := by
            intro pr h
            rw [hsortmem, ← hrecon]
            exact List.mem_append.mpr (Or.inl h)
          have hdr : ∀ pr : Point × V, pr ∈ S.drop (points.length / 2 + 1) →
              pr ∈ points := by
            intro pr h
            rw [hsortmem, ← hrecon]
            exact List.mem_append.mpr (Or.inr (List.mem_cons_of_mem _ h))
          have hqp2 : queuePairs
              (rest ++ [(S.take (points.length / 2), ax.next),
                (S.drop (points.length / 2 + 1), ax.next)]) =
              queuePairs rest ++
                (S.take (points.length / 2) ++
                  (S.drop (points.length / 2 + 1) ++ [])) := by
            rw [queuePairs_append]
            rfl
          have hqp1 : queuePairs ((points, ax) :: rest) =
              points ++ queuePairs rest := rfl
          refine ⟨out, heq, hsout, ?_, ?_⟩
          · intro x
            rw [hpts x, mem_points_add_iff acc hs.1 np x nv, hqp1, hqp2]
            have hxpts : x ∈ points.map Prod.fst ↔
                (x = np ∨ x ∈ (S.take (points.length / 2)).map Prod.fst ∨
                  x ∈ (S.drop (points.length / 2 + 1)).map Prod.fst) := by
              constructor
              · intro hx
                obtain ⟨pr, hpr, hxeq⟩ := List.mem_map.mp hx
                rw [hsortmem, ← hrecon] at hpr
                rcases List.mem_append.mp hpr with h2 | h2
                · exact Or.inr (Or.inl (List.mem_map.mpr ⟨pr, h2, hxeq⟩))
                · rcases List.mem_cons.mp h2 with h3 | h3
                  · subst h3
                    exact Or.inl hxeq.symm
                  · exact Or.inr (Or.inr (List.mem_map.mpr ⟨pr, h3, hxeq⟩))
              · rintro (hx | hx | hx)
                · rw [hx]
                  exact List.mem_map.mpr ⟨(np, nv), hmidmem, rfl⟩
                · obtain ⟨pr, hpr, hxeq⟩ := List.mem_map.mp hx
                  exact List.mem_map.mpr ⟨pr, htk pr hpr, hxeq⟩
                · obtain ⟨pr, hpr, hxeq⟩ := List.mem_map.mp hx
                  exact List.mem_map.mpr ⟨pr, hdr pr hpr, hxeq⟩
            simp only [List.map_append, List.mem_append] at hxpts ⊢
            tauto
          · intro pr hpr
            rw [hqp1, List.mem_append]
            rcases hprs pr hpr with h | h
            · rcases pairs_add_subset acc np nv h with h2 | h2
              · exact Or.inr (Or.inl (h2 ▸ hmidmem))
              · exact Or.inl h2
            · rw [hqp2] at h
              rcases List.mem_append.mp h with h2 | h2
              · exact Or.inr (Or.inr h2)
              · rcases List.mem_append.mp h2 with h3 | h3
                · exact Or.inr (Or.inl (htk pr h3))
                · rcases List.mem_append.mp h3 with h4 | h4
                  · exact Or.inr (Or.inl (hdr pr h4))
                  · simp at h4

/-- `from_vector` never hits the selection-failure branch nor the `unwrap`s:
the loop always succeeds. -/
theorem from_vector_total {V : Type} (ps : List (Point × V)) :
    (KdTree.from_vector_opt ps).isSome := by
  obtain ⟨out, heq, _, _, _⟩ :=
    fromVectorLoop_spec (queueMeasure [(ps, Axis.X)]) [(ps, Axis.X)] KdTree.empty
      le_rfl SInv_empty
  rw [KdTree.from_vector_opt, heq]
  rfl

/-- Summary of the construction: the result satisfies the structural invariant,
stores exactly the input points, and stores only pairs drawn from the input. -/
theorem from_vector_spec {V : Type} (ps : List (Point × V)) :
    SInv (KdTree.from_vector ps) ∧
    (∀ x, x ∈ (KdTree.from_vector ps).root.points ↔ x ∈ ps.map Prod.fst) ∧
    (∀ pr ∈ (KdTree.from_vector ps).root.pairs, pr ∈ ps) := by
  obtain ⟨out, heq, hsout, hpts, hprs⟩ :=
    fromVectorLoop_spec (queueMeasure [(ps, Axis.X)]) [(ps, Axis.X)] KdTree.empty
      le_rfl SInv_empty
  have hfv : KdTree.from_vector ps = out := by
    rw [KdTree.from_vector, KdTree.from_vector_opt, heq]
    rfl
  rw [hfv]
  refine ⟨hsout, ?_, ?_⟩
  · intro x
    rw [hpts x]
    simp [KdTree.empty, queuePairs]
  · intro pr hpr
    rcases hprs pr hpr with h | h
    · simp [KdTree.empty] at h
    · simpa [queuePairs] using h

/-- Every reachable tree satisfies the structural invariant. -/
theorem SInv_of_reachable {V : Type} {t : KdTree V} (hr : Reachable t) :
    SInv t := by
  induction hr with
  | empty => exact SInv_empty
  | add t p v _ ih => exact SInv_add t ih p v
  | from_vec ps => exact (from_vector_spec ps).1

/-! ### Query lemmas -/

theorem weight_pos {V : Type} (t : NTree V) : 1 ≤ t.weight := by
  cases t with
  | leaf => simp [NTree.weight]
  | node ax md v l r =>
    simp only [NTree.weight]
    omega

theorem stackWeight_nil {V : Type} : stackWeight ([] : List (NTree V)) = 0 := rfl

theorem stackWeight_cons {V : Type} (t : NTree V) (s : List (NTree V)) :
    stackWeight (t :: s) = t.weight + stackWeight s := by
  simp [stackWeight]

theorem schedCandidate_leaf {V : Type} (ok : Bool) (s : List (NTree V)) :
    schedCandidate .leaf ok s = s := rfl

theorem schedCandidate_node {V : Type} (ax : Axis) (md : Point) (v : V)
    (l r : NTree V) (ok : Bool) (s : List (NTree V)) :
    schedCandidate (.node ax md v l r) ok s =
      if ok then NTree.node ax md v l r :: s else s := rfl

theorem schedNext_leaf {V : Type} (s : List (NTree V)) :
    schedNext .leaf s = s := rfl

theorem schedNext_node {V : Type} (ax : Axis) (md : Point) (v : V)
    (l r : NTree V) (s : List (NTree V)) :
    schedNext (.node ax md v l r) s = NTree.node ax md v l r :: s := rfl

theorem stackWeight_schedCandidate {V : Type} (cand : NTree V) (ok : Bool)
    (s : List (NTree V)) :
    stackWeight (schedCandidate cand ok s) ≤ cand.weight + stackWeight s := by
  cases cand with
  | leaf =>
    rw [schedCandidate_leaf]
    have := weight_pos (NTree.leaf : NTree V)
    omega
  | node ax md v l r =>
    rw [schedCandidate_node]
    split_ifs
    · rw [stackWeight_cons]
    · have := weight_pos (NTree.node (V := V) ax md v l r)
      omega

theorem stackWeight_schedNext {V : Type} (next : NTree V) (s : List (NTree V)) :
    stackWeight (schedNext next s) ≤ next.weight + stackWeight s := by
  cases next with
  | leaf =>
    rw [schedNext_leaf]
    have := weight_pos (NTree.leaf : NTree V)
    omega
  | node ax md v l r => rw [schedNext_node, stackWeight_cons]

theorem nnStep_weight {V : Type} (q : Point) (k : Nat) (ax : Axis) (md : Point)
    (v : V) (l r : NTree V) (rest : List (NTree V)) (heap : List (Entry V))
    (m : Int) :
    stackWeight (nnStep q k ax md v l r rest heap m).1 + 1 ≤
      stackWeight (NTree.node ax md v l r :: rest) := by
  simp only [nnStep]
  rw [stackWeight_cons]
  simp only [NTree.weight]
  split_ifs with hc
  · have h2 := stackWeight_schedCandidate l
      (decide ((q.axis_value ax - md.axis_value ax) *
        (q.axis_value ax - md.axis_value ax) ≤ min m (md.squared_dist q))) rest
    have h1 := stackWeight_schedNext r
      (schedCandidate l (decide ((q.axis_value ax - md.axis_value ax) *
        (q.axis_value ax - md.axis_value ax) ≤
          min m (md.squared_dist q))) rest)
    omega
  · have h2 := stackWeight_schedCandidate r
      (decide ((q.axis_value ax - md.axis_value ax) *
        (q.axis_value ax - md.axis_value ax) ≤ min m (md.squared_dist q))) rest
    have h1 := stackWeight_schedNext l
      (schedCandidate r (decide ((q.axis_value ax - md.axis_value ax) *
        (q.axis_value ax - md.axis_value ax) ≤
          min m (md.squared_dist q))) rest)
    omega

/-- Generic invariant rule for the query loop: any state predicate preserved by
the two kinds of iterations yields a property of the final heap. -/
theorem nnLoopF_invariant {V : Type} (q : Point) (k : Nat)
    (P : List (NTree V) → List (Entry V) → Int → Prop)
    (Q : List (Entry V) → Prop)
    (hdone : ∀ heap m, P [] heap m → Q heap)
    (hleaf : ∀ rest heap m, P (.leaf :: rest) heap m → P rest heap m)
    (hstep : ∀ ax md v l r rest heap m, P (.node ax md v l r :: rest) heap m →
      P (nnStep q k ax md v l r rest heap m).1
        (nnStep q k ax md v l r rest heap m).2.1
        (nnStep q k ax md v l r rest heap m).2.2) :
    ∀ (fuel : Nat) (stack : List (NTree V)) (heap : List (Entry V)) (m : Int),
      stackWeight stack ≤ fuel → P stack heap m →
      Q (nnLoopF q k fuel stack heap m) := by
  intro fuel
  induction fuel with
  | zero =>
    intro stack heap m hw hp
    cases stack with
    | nil => exact hdone heap m hp
    | cons t s =>
      have := weight_pos t
      rw [stackWeight_cons] at hw
      omega
  | succ fuel ih =>
    intro stack heap m hw hp
    cases stack with
    | nil => exact hdone heap m hp
    | cons t s =>
      cases t with
      | leaf =>
        rw [nnLoopF]
        refine ih s heap m ?_ (hleaf s heap m hp)
        rw [stackWeight_cons] at hw
        simp [NTree.weight] at hw
        omega
      | node ax md v l r =>
        rw [nnLoopF]
        have hw2 := nnStep_weight q k ax md v l r s heap m
        exact ih _ _ _ (by omega) (hstep ax md v l r s heap m hp)

theorem insSorted_perm {V : Type} (e : Entry V) (h : List (Entry V)) :
    (insSorted e h).Perm (e :: h) := by
  induction h with
  | nil => exact List.Perm.refl _
  | cons x xs ih =>
    rw [insSorted]
    split_ifs
    · exact List.Perm.refl _
    · exact (ih.cons x).trans (List.Perm.swap e x xs)

theorem length_insSorted {V : Type} (e : Entry V) (h : List (Entry V)) :
    (insSorted e h).length = h.length + 1 := by
  rw [(insSorted_perm e h).length_eq]
  rfl

theorem mem_insSorted {V : Type} {e y : Entry V} {h : List (Entry V)} :
    y ∈ insSorted e h ↔ y = e ∨ y ∈ h := by
  rw [(insSorted_perm e h).mem_iff, List.mem_cons]

theorem pairwise_insSorted {V : Type} (e : Entry V) (h : List (Entry V))
    (hp : h.Pairwise (fun a b => a.2 ≤ b.2)) :
    (insSorted e h).Pairwise (fun a b => a.2 ≤ b.2) := by
  induction h with
  | nil => simp [insSorted]
  | cons x xs ih =>
    rw [insSorted]
    rw [List.pairwise_cons] at hp
    split_ifs with hle
    · refine List.Pairwise.cons ?_ (List.Pairwise.cons hp.1 hp.2)
      intro b hb
      rcases List.mem_cons.mp hb with h2 | h2
      · rw [h2]; exact hle
      · exact le_trans hle (hp.1 b h2)
    · refine List.Pairwise.cons ?_ (ih hp.2)
      intro b hb
      rcases mem_insSorted.mp hb with h2 | h2
      · rw [h2]; omega
      · exact hp.1 b h2

theorem heapOk_nnStep {V : Type} (q : Point) (k : Nat) (ax : Axis) (md : Point)
    (v : V) (l r : NTree V) (rest : List (NTree V)) (heap : List (Entry V))
    (m : Int) (hh : HeapOk q k heap) :
    HeapOk q k (nnStep q k ax md v l r rest heap m).2.1 := by
  obtain ⟨hlen, hpw, hfaith⟩ := hh
  simp only [nnStep]
  have hpw1 := pairwise_insSorted ((md, v), md.squared_dist q) heap hpw
  have hlen1 := length_insSorted ((md, v), md.squared_dist q) heap
  have hfaith1 : ∀ e ∈ insSorted ((md, v), md.squared_dist q) heap,
      e.2 = Point.squared_dist e.1.1 q := by
    intro e he
    rcases mem_insSorted.mp he with h2 | h2
    · rw [h2]
    · exact hfaith e h2
  split_ifs with hover
  · refine ⟨?_, hpw1.sublist (List.dropLast_sublist _), ?_⟩
    · rw [List.length_dropLast]
      omega
    · intro e he
      exact hfaith1 e ((List.dropLast_sublist _).subset he)
  · exact ⟨by omega, hpw1, hfaith1⟩

/-- The query returns at most k results, in ascending order of squared distance
to the query point, with no tree assumptions at all. -/
theorem nearest_neighbors_length_sorted {V : Type} (t : KdTree V) (q : Point)
    (k : Nat) :
    (t.nearest_neighbors q k).length ≤ k ∧
    (t.nearest_neighbors q k).Pairwise
      (fun a b => Point.squared_dist a.1 q ≤ Point.squared_dist b.1 q) := by
  rw [KdTree.nearest_neighbors]
  cases t.root with
  | leaf => simp
  | node ax md v l r =>
    split_ifs with hk
    · simp
    · have hq : HeapOk q k (nnLoopF q k (NTree.node ax md v l r).weight
          [NTree.node ax md v l r] [] i64Max) := by
        refine nnLoopF_invariant q k (fun _ heap _ => HeapOk q k heap)
          (HeapOk q k) (fun heap m hp => hp) (fun rest heap m hp => hp)
          (fun ax2 md2 v2 l2 r2 rest heap m hp =>
            heapOk_nnStep q k ax2 md2 v2 l2 r2 rest heap m hp)
          _ _ _ _ le_rfl ⟨by simp, List.Pairwise.nil, by simp⟩
      obtain ⟨hlen, hpw, hfaith⟩ := hq
      constructor
      · rw [List.length_map]
        exact hlen
      · rw [List.pairwise_map]
        refine hpw.imp_of_mem ?_
        intro a b ha hb hab
        rw [← hfaith a ha, ← hfaith b hb]
        exact hab

theorem count_stackPoints_schedCandidate {V : Type} (a : Point) (c : NTree V)
    (ok : Bool) (s : List (NTree V)) :
    (stackPoints (schedCandidate c ok s)).count a ≤
      c.points.count a + (stackPoints s).count a := by
  cases c with
  | leaf => rw [schedCandidate_leaf]; omega
  | node ax md v l r =>
    rw [schedCandidate_node]
    split_ifs
    · rw [show stackPoints (NTree.node ax md v l r :: s) =
        (NTree.node ax md v l r).points ++ stackPoints s from rfl,
        List.count_append]
    · omega

theorem count_stackPoints_schedNext {V : Type} (a : Point) (n : NTree V)
    (s : List (NTree V)) :
    (stackPoints (schedNext n s)).count a ≤
      n.points.count a + (stackPoints s).count a := by
  cases n with
  | leaf => rw [schedNext_leaf]; omega
  | node ax md v l r =>
    rw [schedNext_node,
      show stackPoints (NTree.node ax md v l r :: s) =
        (NTree.node ax md v l r).points ++ stackPoints s from rfl,
      List.count_append]

theorem count_heapPoints_nnStep {V : Type} (a : Point) (q : Point) (k : Nat)
    (md : Point) (v : V) (heap : List (Entry V)) :
    (heapPoints (if k < (insSorted ((md, v), md.squared_dist q) heap).length
        then (insSorted ((md, v), md.squared_dist q) heap).dropLast
        else insSorted ((md, v), md.squared_dist q) heap)).count a ≤
      ([md]).count a + (heapPoints heap).count a := by
  have hper : (heapPoints (insSorted ((md, v), md.squared_dist q) heap)).Perm
      (md :: heapPoints heap) := by
    have := (insSorted_perm ((md, v), md.squared_dist q) heap).map
      (fun e => e.1.1)
    simpa [heapPoints] using this
  have hcnt : (heapPoints (insSorted ((md, v), md.squared_dist q) heap)).count a =
      ([md]).count a + (heapPoints heap).count a := by
    rw [hper.count_eq a,
      show (md :: heapPoints heap) = [md] ++ heapPoints heap from rfl,
      List.count_append]
  split_ifs
  · calc ((insSorted ((md, v), md.squared_dist q) heap).dropLast.map
          (fun e => e.1.1)).count a
        ≤ (heapPoints (insSorted ((md, v), md.squared_dist q) heap)).count a := by
          rw [heapPoints, List.map_dropLast]
          exact (List.dropLast_sublist _).count_le a
      _ = ([md]).count a + (heapPoints heap).count a := hcnt
  · exact le_of_eq hcnt

theorem nodup_state_nnStep {V : Type} (q : Point) (k : Nat) (ax : Axis)
    (md : Point) (v : V) (l r : NTree V) (rest : List (NTree V))
    (heap : List (Entry V)) (m : Int)
    (hp : (heapPoints heap ++
      stackPoints (NTree.node ax md v l r :: rest)).Nodup) :
    (heapPoints (nnStep q k ax md v l r rest heap m).2.1 ++
      stackPoints (nnStep q k ax md v l r rest heap m).1).Nodup := by
  rw [List.nodup_iff_count_le_one] at hp ⊢
  intro a
  have hold := hp a
  rw [show stackPoints (NTree.node ax md v l r :: rest) =
    (NTree.node ax md v l r).points ++ stackPoints rest from rfl,
    points_node,
    show (md :: (l.points ++ r.points)) = [md] ++ (l.points ++ r.points)
      from rfl] at hold
  simp only [List.count_append] at hold
  simp only [nnStep]
  rw [List.count_append]
  have hheap := count_heapPoints_nnStep a q k md v heap
  by_cases hcmp : cmp_to_point_value md ax q = .gt
  · rw [if_pos hcmp, if_pos hcmp]
    have h1 := count_stackPoints_schedNext a r
      (schedCandidate l (decide ((q.axis_value ax - md.axis_value ax) *
        (q.axis_value ax - md.axis_value ax) ≤
          min m (md.squared_dist q))) rest)
    have h2 := count_stackPoints_schedCandidate a l
      (decide ((q.axis_value ax - md.axis_value ax) *
        (q.axis_value ax - md.axis_value ax) ≤ min m (md.squared_dist q))) rest
    omega
  · rw [if_neg hcmp, if_neg hcmp]
    have h1 := count_stackPoints_schedNext a l
      (schedCandidate r (decide ((q.axis_value ax - md.axis_value ax) *
        (q.axis_value ax - md.axis_value ax) ≤
          min m (md.squared_dist q))) rest)
    have h2 := count_stackPoints_schedCandidate a r
      (decide ((q.axis_value ax - md.axis_value ax) *
        (q.axis_value ax - md.axis_value ax) ≤ min m (md.squared_dist q))) rest
    omega

/-- The query never returns the same stored point twice (on trees whose stored
points are distinct). -/
theorem nearest_neighbors_nodup {V : Type} (t : KdTree V)
    (hnd : t.root.points.Nodup) (q : Point) (k : Nat) :
    ((t.nearest_neighbors q k).map Prod.fst).Nodup := by
  rw [KdTree.nearest_neighbors]
  cases hroot : t.root with
  | leaf => simp
  | node ax md v l r =>
    split_ifs with hk
    · simp
    · rw [List.map_map]
      have hq : (heapPoints (nnLoopF q k (NTree.node ax md v l r).weight
          [NTree.node ax md v l r] [] i64Max)).Nodup := by
        refine nnLoopF_invariant q k
          (fun stack heap _ => (heapPoints heap ++ stackPoints stack).Nodup)
          (fun heap => (heapPoints heap).Nodup)
          (fun heap m hp => by simpa [stackPoints] using hp)
          (fun rest heap m hp => by
            simpa [show stackPoints (NTree.leaf :: rest) =
              NTree.leaf.points ++ stackPoints rest from rfl] using hp)
          (fun ax2 md2 v2 l2 r2 rest heap m hp =>
            nodup_state_nnStep q k ax2 md2 v2 l2 r2 rest heap m hp)
          _ _ _ _ le_rfl ?_
        rw [hroot] at hnd
        simpa [heapPoints, stackPoints] using hnd
      exact hq

theorem mem_points_of_mem_pairs {V : Type} {t : NTree V} {pr : Point × V}
    (h : pr ∈ t.pairs) : pr.1 ∈ t.points :=
  List.mem_map_of_mem Prod.fst h

theorem axis_sq_le_squared_dist (p q : Point) (ax : Axis) :
    (p.axis_value ax - q.axis_value ax) * (p.axis_value ax - q.axis_value ax) ≤
      p.squared_dist q := by
  cases ax with
  | X =>
    simp only [Point.axis_value, Point.squared_dist]
    nlinarith [mul_self_nonneg (p.y - q.y)]
  | Y =>
    simp only [Point.axis_value, Point.squared_dist]
    nlinarith [mul_self_nonneg (p.x - q.x)]

/-- Geometry of pruning, right side: when the query point falls on or left of the
splitting plane, every pair in the right subtree is at least the squared plane
gap away from the query point. -/
theorem pruned_right_bound {V : Type} {q : Point} {ax : Axis} {md : Point}
    {v : V} {l r : NTree V} (hinv : Inv (NTree.node ax md v l r))
    (hc : ¬cmp_to_point_value md ax q = .gt) {pr : Point × V}
    (hpr : pr ∈ r.pairs) :
    (q.axis_value ax - md.axis_value ax) * (q.axis_value ax - md.axis_value ax) ≤
      Point.squared_dist pr.1 q := by
  have h1 : q.axis_value ax ≤ md.axis_value ax := by
    rw [cmp_to_point_value, intCmp_ne_gt_iff] at hc
    exact hc
  have h2 : md.axis_value ax < pr.1.axis_value ax :=
    hinv.2.1 pr.1 (mem_points_of_mem_pairs hpr)
  have h3 := axis_sq_le_squared_dist pr.1 q ax
  nlinarith [h1, h2, h3]

/-- Geometry of pruning, left side: when the query point falls strictly right of
the splitting plane, every pair in the left subtree is at least the squared plane
gap away from the query point. -/
theorem pruned_left_bound {V : Type} {q : Point} {ax : Axis} {md : Point}
    {v : V} {l r : NTree V} (hinv : Inv (NTree.node ax md v l r))
    (hc : cmp_to_point_value md ax q = .gt) {pr : Point × V}
    (hpr : pr ∈ l.pairs) :
    (q.axis_value ax - md.axis_value ax) * (q.axis_value ax - md.axis_value ax) ≤
      Point.squared_dist pr.1 q := by
  have h1 : md.axis_value ax < q.axis_value ax := by
    rw [cmp_to_point_value, intCmp_gt_iff] at hc
    exact hc
  have h2 : pr.1.axis_value ax ≤ md.axis_value ax :=
    hinv.1 pr.1 (mem_points_of_mem_pairs hpr)
  have h3 := axis_sq_le_squared_dist pr.1 q ax
  nlinarith [h1, h2, h3]

theorem mem_schedCandidate_of_mem {V : Type} {u : NTree V} {s : List (NTree V)}
    (c : NTree V) (ok : Bool) (h : u ∈ s) : u ∈ schedCandidate c ok s := by
  cases c with
  | leaf => rwa [schedCandidate_leaf]
  | node ax md v l r =>
    rw [schedCandidate_node]
    split_ifs
    · exact List.mem_cons_of_mem _ h
    · exact h

theorem mem_schedNext_of_mem {V : Type} {u : NTree V} {s : List (NTree V)}
    (n : NTree V) (h : u ∈ s) : u ∈ schedNext n s := by
  cases n with
  | leaf => rwa [schedNext_leaf]
  | node ax md v l r =>
    rw [schedNext_node]
    exact List.mem_cons_of_mem _ h

theorem mem_of_mem_schedCandidate {V : Type} {u c : NTree V} {ok : Bool}
    {s : List (NTree V)} (h : u ∈ schedCandidate c ok s) : u = c ∨ u ∈ s := by
  cases c with
  | leaf => rw [schedCandidate_leaf] at h; exact Or.inr h
  | node ax md v l r =>
    rw [schedCandidate_node] at h
    split_ifs at h
    · rcases List.mem_cons.mp h with h2 | h2
      · exact Or.inl h2
      · exact Or.inr h2
    · exact Or.inr h

theorem mem_of_mem_schedNext {V : Type} {u n : NTree V} {s : List (NTree V)}
    (h : u ∈ schedNext n s) : u = n ∨ u ∈ s := by
  cases n with
  | leaf => rw [schedNext_leaf] at h; exact Or.inr h
  | node ax md v l r =>
    rw [schedNext_node] at h
    rcases List.mem_cons.mp h with h2 | h2
    · exact Or.inl h2
    · exact Or.inr h2

theorem mem_schedNext_self {V : Type} (ax : Axis) (md : Point) (v : V)
    (l r : NTree V) (s : List (NTree V)) :
    NTree.node ax md v l r ∈ schedNext (NTree.node ax md v l r) s := by
  rw [schedNext_node]
  exact List.mem_cons_self _ _

theorem mem_schedCandidate_self {V : Type} (ax : Axis) (md : Point) (v : V)
    (l r : NTree V) (ok : Bool) (s : List (NTree V)) (hok : ok = true) :
    NTree.node ax md v l r ∈ schedCandidate (NTree.node ax md v l r) ok s := by
  rw [schedCandidate_node, hok, if_pos rfl]
  exact List.mem_cons_self _ _

/-- Where a pair of a popped node ends up after one loop iteration: it is the
node's own pair, or it lies in a scheduled subtree, or it was pruned — and then
its distance is at least the updated `min_dist` bound `m'`. -/
theorem popped_cover {V : Type} (q : Point) (ax : Axis) (md : Point) (v : V)
    (l r : NTree V) (rest : List (NTree V)) (m' : Int)
    (hinv : Inv (NTree.node ax md v l r)) (pr : Point × V)
    (hpr : pr ∈ (NTree.node ax md v l r).pairs) :
    pr = (md, v) ∨
    (∃ u ∈ schedNext (if cmp_to_point_value md ax q = .gt then r else l)
        (schedCandidate (if cmp_to_point_value md ax q = .gt then l else r)
          (decide ((q.axis_value ax - md.axis_value ax) *
            (q.axis_value ax - md.axis_value ax) ≤ m')) rest),
      pr ∈ u.pairs) ∨
    m' ≤ Point.squared_dist pr.1 q := by
  rw [pairs_node, List.mem_cons, List.mem_append] at hpr
  rcases hpr with h | h | h
  · exact Or.inl h
  · -- pr is stored in the left subtree
    by_cases hcmp : cmp_to_point_value md ax q = .gt
    · -- the left subtree is the far candidate
      rw [if_pos hcmp, if_pos hcmp]
      by_cases hok : (q.axis_value ax - md.axis_value ax) *
          (q.axis_value ax - md.axis_value ax) ≤ m'
      · cases hl : l with
        | leaf => rw [hl] at h; simp at h
        | node ax2 md2 v2 l2 r2 =>
          subst hl
          exact Or.inr (Or.inl ⟨_, mem_schedNext_of_mem _
            (mem_schedCandidate_self ax2 md2 v2 l2 r2 _ rest (by simp [hok])), h⟩)
      · refine Or.inr (Or.inr ?_)
        have hb := pruned_left_bound hinv hcmp h
        omega
    · -- the left subtree is the near child: always scheduled
      rw [if_neg hcmp, if_neg hcmp]
      cases hl : l with
      | leaf => rw [hl] at h; simp at h
      | node ax2 md2 v2 l2 r2 =>
        subst hl
        exact Or.inr (Or.inl ⟨_, mem_schedNext_self ax2 md2 v2 l2 r2 _, h⟩)
  · -- pr is stored in the right subtree
    by_cases hcmp : cmp_to_point_value md ax q = .gt
    · -- the right subtree is the near child
      rw [if_pos hcmp, if_pos hcmp]
      cases hr : r with
      | leaf => rw [hr] at h; simp at h
      | node ax2 md2 v2 l2 r2 =>
        subst hr
        exact Or.inr (Or.inl ⟨_, mem_schedNext_self ax2 md2 v2 l2 r2 _, h⟩)
    · -- the right subtree is the far candidate
      rw [if_neg hcmp, if_neg hcmp]
      by_cases hok : (q.axis_value ax - md.axis_value ax) *
          (q.axis_value ax - md.axis_value ax) ≤ m'
      · cases hr : r with
        | leaf => rw [hr] at h; simp at h
        | node ax2 md2 v2 l2 r2 =>
          subst hr
          exact Or.inr (Or.inl ⟨_, mem_schedNext_of_mem _
            (mem_schedCandidate_self ax2 md2 v2 l2 r2 _ rest (by simp [hok])), h⟩)
      · refine Or.inr (Or.inr ?_)
        have hb := pruned_right_bound hinv hcmp h
        omega

/-- Correctness of the query loop for k = 1: starting from a non-empty root that
satisfies the geometric invariant (with every stored squared distance within the
`i64` initialization bound), the loop ends with exactly one retained candidate,
it is a stored pair, and its squared distance to the query point is minimal among
all stored pairs. -/
theorem nn_k1_correct {V : Type} (q : Point) (t0 : NTree V) (hinv0 : Inv t0)
    (hne : t0.isLeaf = false)
    (hb : ∀ pr ∈ t0.pairs, Point.squared_dist pr.1 q ≤ i64Max) :
    ∃ e : Entry V,
      nnLoopF q 1 t0.weight [t0] [] i64Max = [e] ∧
      e.1 ∈ t0.pairs ∧
      ∀ pr ∈ t0.pairs, Point.squared_dist e.1.1 q ≤ Point.squared_dist pr.1 q := by
  refine nnLoopF_invariant q 1
    (fun stack heap m =>
      (∀ u ∈ stack, Inv u) ∧
      (∀ u ∈ stack, ∀ pr ∈ u.pairs, pr ∈ t0.pairs) ∧
      ((heap = [] ∧ m = i64Max ∧
          ∀ pr ∈ t0.pairs, ∃ u ∈ stack, pr ∈ u.pairs) ∨
        (∃ e : Entry V, heap = [e] ∧ e.1 ∈ t0.pairs ∧
          e.2 = Point.squared_dist e.1.1 q ∧ e.2 = m ∧
          ∀ pr ∈ t0.pairs, (∃ u ∈ stack, pr ∈ u.pairs) ∨
            m ≤ Point.squared_dist pr.1 q)))
    (fun heap => ∃ e : Entry V, heap = [e] ∧ e.1 ∈ t0.pairs ∧
      ∀ pr ∈ t0.pairs, Point.squared_dist e.1.1 q ≤ Point.squared_dist pr.1 q)
    ?_ ?_ ?_ t0.weight [t0] [] i64Max (by simp [stackWeight])
    ⟨by simp [hinv0], by simp, Or.inl ⟨rfl, rfl, fun pr hpr => ⟨t0, by simp, hpr⟩⟩⟩
  · -- done: the stack is exhausted
    intro heap m hp
    rcases hp.2.2 with ⟨hheap, hm, hcov⟩ | ⟨e, hheap, hmem, hfA, hfM, hcov⟩
    · exfalso
      cases ht0 : t0 with
      | leaf => rw [ht0] at hne; simp at hne
      | node ax md v l r =>
        obtain ⟨u, hu, _⟩ := hcov (md, v) (by rw [ht0, pairs_node]; simp)
        simp at hu
    · refine ⟨e, hheap, hmem, ?_⟩
      intro pr hpr
      rcases hcov pr hpr with ⟨u, hu, _⟩ | hle
      · simp at hu
      · omega
  · -- a popped leaf changes nothing
    intro rest heap m hp
    obtain ⟨hIs, hSub, hcase⟩ := hp
    refine ⟨fun u hu => hIs u (List.mem_cons_of_mem _ hu),
      fun u hu => hSub u (List.mem_cons_of_mem _ hu), ?_⟩
    have hcovstep : ∀ pr : Point × V,
        (∃ u ∈ (NTree.leaf :: rest : List (NTree V)), pr ∈ u.pairs) →
        ∃ u ∈ rest, pr ∈ u.pairs := by
      rintro pr ⟨u, hu, hinu⟩
      rcases List.mem_cons.mp hu with h2 | h2
      · rw [h2] at hinu; simp at hinu
      · exact ⟨u, h2, hinu⟩
    rcases hcase with ⟨hheap, hm, hcov⟩ | ⟨e, hheap, hmem, hfA, hfM, hcov⟩
    · exact Or.inl ⟨hheap, hm, fun pr hpr => hcovstep pr (hcov pr hpr)⟩
    · refine Or.inr ⟨e, hheap, hmem, hfA, hfM, ?_⟩
      intro pr hpr
      rcases hcov pr hpr with h | h
      · exact Or.inl (hcovstep pr h)
      · exact Or.inr h
  · -- a popped node
    intro ax md v l r rest heap m hp
    obtain ⟨hIs, hSub, hcase⟩ := hp
    have hinv : Inv (NTree.node ax md v l r) := hIs _ (List.mem_cons_self _ _)
    have hsubn : ∀ pr ∈ (NTree.node ax md v l r).pairs, pr ∈ t0.pairs :=
      hSub _ (List.mem_cons_self _ _)
    have hmdv : (md, v) ∈ t0.pairs := hsubn _ (by rw [pairs_node]; simp)
    have hd : Point.squared_dist md q ≤ i64Max := hb _ hmdv
    have hlsub : ∀ pr ∈ l.pairs, pr ∈ t0.pairs := fun pr h =>
      hsubn pr (by rw [pairs_node]
                   exact List.mem_cons_of_mem _ (List.mem_append.mpr (Or.inl h)))
    have hrsub : ∀ pr ∈ r.pairs, pr ∈ t0.pairs := fun pr h =>
      hsubn pr (by rw [pairs_node]
                   exact List.mem_cons_of_mem _ (List.mem_append.mpr (Or.inr h)))
    simp only [nnStep]
    refine ⟨?_, ?_, ?_⟩
    · intro u hu
      rcases mem_of_mem_schedNext hu with h2 | h2
      · rw [h2]
        split_ifs
        · exact hinv.2.2.2
        · exact hinv.2.2.1
      · rcases mem_of_mem_schedCandidate h2 with h3 | h3
        · rw [h3]
          split_ifs
          · exact hinv.2.2.1
          · exact hinv.2.2.2
        · exact hIs u (List.mem_cons_of_mem _ h3)
    · intro u hu
      rcases mem_of_mem_schedNext hu with h2 | h2
      · rw [h2]
        split_ifs
        · exact hrsub
        · exact hlsub
      · rcases mem_of_mem_schedCandidate h2 with h3 | h3
        · rw [h3]
          split_ifs
          · exact hlsub
          · exact hrsub
        · exact hSub u (List.mem_cons_of_mem _ h3)
    · have hschedkeep : ∀ u ∈ rest,
          u ∈ schedNext (if cmp_to_point_value md ax q = .gt then r else l)
            (schedCandidate (if cmp_to_point_value md ax q = .gt then l else r)
              (decide ((q.axis_value ax - md.axis_value ax) *
                (q.axis_value ax - md.axis_value ax) ≤
                  min m (md.squared_dist q))) rest) := fun u hu =>
        mem_schedNext_of_mem _ (mem_schedCandidate_of_mem _ _ hu)
      rcases hcase with ⟨hheap, hm, hcov⟩ | ⟨e, hheap, hmem, hfA, hfM, hcov⟩
      · subst hheap
        subst hm
        refine Or.inr ⟨((md, v), md.squared_dist q), ?_, hmdv, rfl,
          (min_eq_right hd).symm, ?_⟩
        · simp [insSorted]
        · intro pr hpr
          rcases hcov pr hpr with ⟨u, hu, hinu⟩
          rcases List.mem_cons.mp hu with h2 | h2
          · rw [h2] at hinu
            rcases popped_cover q ax md v l r rest
                (min i64Max (md.squared_dist q)) hinv pr hinu with
              heq | hsched | hbound
            · refine Or.inr ?_
              rw [heq]
              exact min_le_right _ _
            · exact Or.inl hsched
            · exact Or.inr hbound
          · exact Or.inl ⟨u, hschedkeep u h2, hinu⟩
      · subst hheap
        subst hfM
        by_cases hle : md.squared_dist q ≤ e.2
        · refine Or.inr ⟨((md, v), md.squared_dist q), ?_, hmdv, rfl,
            (min_eq_right hle).symm, ?_⟩
          · simp [insSorted, hle]
          · intro pr hpr
            rcases hcov pr hpr with ⟨u, hu, hinu⟩ | hfar
            · rcases List.mem_cons.mp hu with h2 | h2
              · rw [h2] at hinu
                rcases popped_cover q ax md v l r rest
                    (min e.2 (md.squared_dist q)) hinv pr hinu with
                  heq | hsched | hbound
                · refine Or.inr ?_
                  rw [heq]
                  exact min_le_right _ _
                · exact Or.inl hsched
                · exact Or.inr hbound
              · exact Or.inl ⟨u, hschedkeep u h2, hinu⟩
            · refine Or.inr ?_
              calc min e.2 (md.squared_dist q) ≤ e.2 := min_le_left _ _
                _ ≤ Point.squared_dist pr.1 q := hfar
        · refine Or.inr ⟨e, ?_, hmem, hfA, (min_eq_left (by omega)).symm, ?_⟩
          · simp [insSorted, hle]
          · intro pr hpr
            rcases hcov pr hpr with ⟨u, hu, hinu⟩ | hfar
            · rcases List.mem_cons.mp hu with h2 | h2
              · rw [h2] at hinu
                rcases popped_cover q ax md v l r rest
                    (min e.2 (md.squared_dist q)) hinv pr hinu with
                  heq | hsched | hbound
                · refine Or.inr ?_
                  rw [heq]
                  exact min_le_right _ _
                · exact Or.inl hsched
                · exact Or.inr hbound
              · exact Or.inl ⟨u, hschedkeep u h2, hinu⟩
            · refine Or.inr ?_
              calc min e.2 (md.squared_dist q) ≤ e.2 := min_le_left _ _
                _ ≤ Point.squared_dist pr.1 q := hfar

/-- On a non-empty reachable index (under the numeric-range precondition of
spec §7), `nearest_neighbor` returns a stored pair of minimal squared distance
to the query point. -/
theorem nearest_neighbor_min {V : Type} (t : KdTree V) (hr : Reachable t)
    (q : Point) (hne : t.root.isLeaf = false)
    (hb : ∀ pr ∈ t.root.pairs, Point.squared_dist pr.1 q ≤ i64Max) :
    ∃ pr, t.nearest_neighbor q = some pr ∧ pr ∈ t.root.pairs ∧
      ∀ pr2 ∈ t.root.pairs,
        Point.squared_dist pr.1 q ≤ Point.squared_dist pr2.1 q := by
  have hinv : Inv t.root := (SInv_of_reachable hr).1
  obtain ⟨root, len⟩ := t
  cases root with
  | leaf => simp at hne
  | node ax md v l r =>
    simp only at hinv hb ⊢
    obtain ⟨e, heq, hmem, hmin⟩ :=
      nn_k1_correct q (NTree.node ax md v l r) hinv rfl hb
    refine ⟨e.1, ?_, hmem, hmin⟩
    rw [KdTree.nearest_neighbor, KdTree.nearest_neighbors]
    simp only [if_neg one_ne_zero]
    rw [heq]
    rfl

/-! ### The claims -/

/-- C1: the claim that `nearest_neighbors(q, k)` returns the same set as the
brute-force scan sorted by squared distance and truncated to k fails on the
code: on the stored set {(0,0), (10,5), (9,6)} with query (1,0) and k = 2, the
two brute-force nearest points are (0,0) and (9,6) (distances 1 and 100), but
the code returns (0,0) and (10,5) (distance 106), because its pruning compares
the far-side gap against the minimum distance seen so far instead of against the
worst retained candidate. -/
theorem c1_nearest_neighbors_brute_force_divergence :
    (bugTree.nearest_neighbors ⟨1, 0⟩ 2).map Prod.fst = [⟨0, 0⟩, ⟨10, 5⟩] ∧
    (brute_k_nearest ⟨1, 0⟩ 2 bugTree.root.pairs).map Prod.fst =
      [⟨0, 0⟩, ⟨9, 6⟩] ∧
    (⟨9, 6⟩ : Point) ∈
      (brute_k_nearest ⟨1, 0⟩ 2 bugTree.root.pairs).map Prod.fst ∧
    (⟨9, 6⟩ : Point) ∉ (bugTree.nearest_neighbors ⟨1, 0⟩ 2).map Prod.fst := by
  decide

/-- C2: the claim that at every visited node the far child is scheduled iff the
squared axis gap is ≤ the worst-kept bound (heap maximum once k entries are
held, +∞ before) fails on the code: on `bugTree` with query (1,0) and k = 2, at
node (10,5) the heap holds the two distances 1 and 106, the gap is (0−5)² = 25 ≤
106, yet the code prunes the far child (its test uses `min_dist` = 1): the far
child's point (9,6) is nearer than the kept (10,5) but absent from the result. -/
theorem c2_far_child_pruning_divergence :
    Point.squared_dist ⟨9, 6⟩ ⟨1, 0⟩ < Point.squared_dist ⟨10, 5⟩ ⟨1, 0⟩ ∧
    ((0 : Int) - 5) * ((0 : Int) - 5) ≤ Point.squared_dist ⟨10, 5⟩ ⟨1, 0⟩ ∧
    (⟨10, 5⟩ : Point) ∈ (bugTree.nearest_neighbors ⟨1, 0⟩ 2).map Prod.fst ∧
    (⟨9, 6⟩ : Point) ∉ (bugTree.nearest_neighbors ⟨1, 0⟩ 2).map Prod.fst := by
  decide

/-- C3: the claim that `nearest_neighbors(q, k)` returns exactly min(k, len)
results whenever k > 0 on a non-empty index fails on the code: on `bugTree`
(3 stored points) with query (1,0) and k = 3, the code returns only 2 results —
the same `min_dist` pruning slip discards a whole subtree that still had to
contribute a result. -/
theorem c3_result_count_divergence :
    (bugTree.nearest_neighbors ⟨1, 0⟩ 3).length = 2 ∧
    bugTree.length = 3 ∧
    (bugTree.nearest_neighbors ⟨1, 0⟩ 3).length ≠ min 3 bugTree.length := by
  decide

/-- C4: `nearest_neighbor(q)` is the single result (or none) of
`nearest_neighbors(q, 1)`; on a non-empty reachable index (with squared
distances within the i64 initialization bound, the numeric precondition of spec
§7) it returns a stored pair of minimal squared distance to q; and on the index
holding (0,1), (0,0), (0,2) with unit payloads, `nearest_neighbor((1,2))`
returns (0,2), exercising the far-side pruning branch. -/
theorem c4_nearest_neighbor_spec :
    (∀ (V : Type) (t : KdTree V) (q : Point),
      t.nearest_neighbor q = (t.nearest_neighbors q 1).head?) ∧
    (∀ (V : Type) (t : KdTree V), Reachable t → ∀ q : Point,
      t.root.isLeaf = false →
      (∀ pr ∈ t.root.pairs, Point.squared_dist pr.1 q ≤ i64Max) →
      ∃ pr, t.nearest_neighbor q = some pr ∧ pr ∈ t.root.pairs ∧
        ∀ pr2 ∈ t.root.pairs,
          Point.squared_dist pr.1 q ≤ Point.squared_dist pr2.1 q) ∧
    exampleCTree.nearest_neighbor ⟨1, 2⟩ = some (⟨0, 2⟩, ()) :=
  ⟨fun _ _ _ => rfl,
   fun _ t hr q hne hb => nearest_neighbor_min t hr q hne hb,
   by decide⟩

theorem c4_witness :
    ∃ pr, exampleCTree.nearest_neighbor ⟨1, 2⟩ = some pr ∧
      pr ∈ exampleCTree.root.pairs ∧
      ∀ pr2 ∈ exampleCTree.root.pairs,
        Point.squared_dist pr.1 ⟨1, 2⟩ ≤ Point.squared_dist pr2.1 ⟨1, 2⟩ :=
  c4_nearest_neighbor_spec.2.1 Unit exampleCTree
    (Reachable.add _ _ _ (Reachable.add _ _ _ (Reachable.add _ _ _
      Reachable.empty)))
    ⟨1, 2⟩ (by decide) (by decide)

/-- C5: on every reachable index, `add(p, v)` returns the previously stored
value for p (`valueAt`), afterwards the stored value for p is v; when p was
already stored the return is Some and `len()` is unchanged, and when p was not
stored the return is None and `len()` grows by exactly 1. -/
theorem c5_add_replace_or_insert {V : Type} (t : KdTree V) (hr : Reachable t)
    (p : Point) (v : V) :
    ((t.add p v).2 = valueAt t.root p) ∧
    (valueAt (t.add p v).1.root p = some v) ∧
    (p ∈ t.root.points →
      (t.add p v).2.isSome = true ∧ (t.add p v).1.length = t.length) ∧
    (p ∉ t.root.points →
      (t.add p v).2 = none ∧ (t.add p v).1.length = t.length + 1) := by
  obtain ⟨hinv, hnd, hlen⟩ := SInv_of_reachable hr
  obtain ⟨root, len⟩ := t
  cases root with
  | leaf =>
    refine ⟨rfl, valueAt_newNode_self p v Axis.X, ?_, ?_⟩
    · intro hmem
      simp at hmem
    · intro _
      refine ⟨rfl, ?_⟩
      have hlen0 : len = 0 := hlen
      show 1 = len + 1
      omega
  | node ax md val l r =>
    have hinv2 : Inv (NTree.node ax md val l r) := hinv
    have hsnd : (NTree.addNode p v (NTree.node ax md val l r)).2 =
        valueAt (NTree.node ax md val l r) p :=
      addNode_snd_eq_valueAt _ hinv2 p v
    rw [add_root_node]
    refine ⟨hsnd, valueAt_addNode_self _ hinv2 rfl p v, ?_, ?_⟩
    · intro hmem
      have hv : valueAt (NTree.node ax md val l r) p ≠ none := by
        intro h0
        rw [valueAt_eq_none_iff] at h0
        exact h0 (by simpa using hmem)
      cases hval : valueAt (NTree.node ax md val l r) p with
      | none => exact absurd hval hv
      | some w =>
        rw [hsnd, hval]
        simp
    · intro hmem
      have hv : valueAt (NTree.node ax md val l r) p = none := by
        rw [valueAt_eq_none_iff]
        simpa using hmem
      rw [hsnd, hv]
      simp

theorem c5_witness :
    ((bugTree.add ⟨10, 5⟩ 7).2 = valueAt bugTree.root ⟨10, 5⟩) ∧
    (valueAt (bugTree.add ⟨10, 5⟩ 7).1.root ⟨10, 5⟩ = some 7) ∧
    ((⟨10, 5⟩ : Point) ∈ bugTree.root.points →
      (bugTree.add ⟨10, 5⟩ 7).2.isSome = true ∧
      (bugTree.add ⟨10, 5⟩ 7).1.length = bugTree.length) ∧
    ((⟨10, 5⟩ : Point) ∉ bugTree.root.points →
      (bugTree.add ⟨10, 5⟩ 7).2 = none ∧
      (bugTree.add ⟨10, 5⟩ 7).1.length = bugTree.length + 1) :=
  c5_add_replace_or_insert bugTree
    (Reachable.add _ _ _ (Reachable.add _ _ _ (Reachable.add _ _ _
      Reachable.empty)))
    ⟨10, 5⟩ 7

/-- C6 counterexample: the "last pair wins" policy fails on the code (with the
selection routine modelled from the spec as a stable sort): for the input
[( (0,0), 0), ((0,0), 1), ((1,1), 2)], the last pair carrying (0,0) has value 1,
yet the built index stores value 0 for (0,0) — the median duplicate is inserted
first and the earlier duplicate, queued in the left half, overwrites it later. -/
theorem c6_last_wins_counterexample :
    ((dupPairs.filter (fun pr => decide (pr.1 = Point.mk 0 0))).getLast?).map
      Prod.snd = some 1 ∧
    valueAt (KdTree.from_vector dupPairs).root ⟨0, 0⟩ = some 0 ∧
    valueAt (KdTree.from_vector dupPairs).root ⟨0, 0⟩ ≠ some 1 := by
  decide

/-- C6 (amended): `from_vector(pairs)` builds an index whose `len()` equals the
number of distinct points in the list, and the value stored for each point is
the value of one of the pairs in the list carrying that point (which of the
duplicates is selection-order dependent, not necessarily the last). -/
theorem c6_from_vector_amended {V : Type} (ps : List (Point × V)) :
    (KdTree.from_vector ps).length = (ps.map Prod.fst).dedup.length ∧
    ∀ pr ∈ (KdTree.from_vector ps).root.pairs, pr ∈ ps := by
  obtain ⟨⟨hinv, hnd, hlen⟩, hmem, hprs⟩ := from_vector_spec ps
  refine ⟨?_, hprs⟩
  rw [hlen]
  have hperm : (KdTree.from_vector ps).root.points.Perm
      (ps.map Prod.fst).dedup := by
    rw [List.perm_ext_iff_of_nodup hnd (List.nodup_dedup _)]
    intro a
    rw [List.mem_dedup]
    exact hmem a
  exact hperm.length_eq

theorem c6_witness :
    (KdTree.from_vector dupPairs).length = (dupPairs.map Prod.fst).dedup.length ∧
    (⟨0, 0⟩, 0) ∈ dupPairs :=
  ⟨(c6_from_vector_amended dupPairs).1,
   (c6_from_vector_amended dupPairs).2 (⟨0, 0⟩, 0) (by decide)⟩

/-- C7: every index reachable by any sequence of `from_vector` and `add`
operations satisfies the left-inclusive rule at every node: left-subtree points
have axis coordinate ≤ the node's, right-subtree points strictly greater. -/
theorem c7_reachable_invariant {V : Type} (t : KdTree V) (hr : Reachable t) :
    Inv t.root :=
  (SInv_of_reachable hr).1

theorem c7_witness : Inv (KdTree.from_vector dupPairs).root :=
  c7_reachable_invariant _ (Reachable.from_vec dupPairs)

/-- C8: the selection routine fails exactly when the rank is ≥ the sequence
length (which subsumes the empty sequence), and inside `from_vector` every
invocation succeeds — the failure branch and the subsequent unwraps are
unreachable, so the whole construction is total. -/
theorem c8_selection_contract_and_totality :
    (∀ (α : Type) (v : List α) (k : Nat) (key : α → Int × Int),
      ksmallest_by_key v k key = none ↔ v.length ≤ k) ∧
    (∀ (V : Type) (ps : List (Point × V)),
      (KdTree.from_vector_opt ps).isSome = true) :=
  ⟨fun _ v k key => ksmallest_by_key_none_iff v k key,
   fun _ ps => from_vector_total ps⟩

/-- C9: for every index, query point and k, `nearest_neighbors` returns at most
k results, sorted ascending by squared distance to the query point. -/
theorem c9_length_and_sorted {V : Type} (t : KdTree V) (q : Point) (k : Nat) :
    (t.nearest_neighbors q k).length ≤ k ∧
    (t.nearest_neighbors q k).Pairwise
      (fun a b => Point.squared_dist a.1 q ≤ Point.squared_dist b.1 q) :=
  nearest_neighbors_length_sorted t q k

/-- C10: on every reachable index, `nearest_neighbors` never returns the same
stored point twice: the traversal visits disjoint subtrees, so each node enters
the work stack at most once and stored points are pairwise distinct. -/
theorem c10_no_duplicates {V : Type} (t : KdTree V) (hr : Reachable t)
    (q : Point) (k : Nat) :
    ((t.nearest_neighbors q k).map Prod.fst).Nodup :=
  nearest_neighbors_nodup t (SInv_of_reachable hr).2.1 q k

theorem c10_witness :
    ((bugTree.nearest_neighbors ⟨1, 0⟩ 2).map Prod.fst).Nodup :=
  c10_no_duplicates bugTree
    (Reachable.add _ _ _ (Reachable.add _ _ _ (Reachable.add _ _ _
      Reachable.empty)))
    ⟨1, 0⟩ 2

end Matrs
